import Mathlib

/-!
# Verification of the brokaw NNTP header-block parser

Shallow embedding of `src/types/response/article/parse.rs`, a nom-5 based
parser for RFC 3977 article header blocks.  Byte buffers are modelled as
`List Nat` (each element a byte value), a nom parser `Fn(&[u8]) ->
IResult<&[u8], T>` becomes `List Nat → Option (List Nat × T)` (first
component of the pair: the unconsumed remainder, as in nom).  nom's
`Err::Error`/`Err::Failure` distinction is irrelevant here (all combinators
used are `complete` and treat failures uniformly), so `none` models failure.
Rust strings stored into `Header`/`Headers` are modelled by their UTF-8
byte sequences: every span the grammar can produce is valid UTF-8 (names
are A-NOTCOLON hence printable ASCII; content is built from P-CHARs,
horizontal whitespace and CRLF), on which `String::from_utf8_lossy` is the
exact, injective UTF-8 decoding, so no information is lost or gained by
staying at the byte level.

Loops (`fold_many1`, `many0`) are modelled with an explicit fuel argument;
every inner parser below consumes at least one byte on success, so fuel
equal to the buffer length reproduces nom's run-until-failure semantics
exactly (and nom's zero-consumption infinite-loop guard can never fire).
-/

namespace Brokaw

/-- A nom parser over byte slices: returns `(remainder, value)` on success. -/
abbrev Parser (α : Type) := List Nat → Option (List Nat × α)

/-! ## Generic nom combinators -/

/-- nom `take(n)`: splits off exactly `n` bytes, failing when the buffer is
shorter. -/
def takeP (n : Nat) : Parser (List Nat) := fun b =>
  if n ≤ b.length then some (b.drop n, b.take n) else none

/-- nom `verify(p, f)`: run `p`, then require `f` on its output. -/
def verifyP (p : Parser α) (f : α → Bool) : Parser α := fun b =>
  match p b with
  | some (r, v) => if f v then some (r, v) else none
  | none => none

/-- nom `alt((p, q))`: first success wins. -/
def altP (p q : Parser α) : Parser α := fun b =>
  match p b with
  | some res => some res
  | none => q b

/-- nom `char(c)`: match one exact byte. -/
def charP (c : Nat) : Parser Nat := fun b =>
  match b with
  | d :: r => if d = c then some (r, c) else none
  | [] => none

/-- nom `crlf`: match the two bytes `\r\n`. -/
def crlfP : Parser (List Nat) := fun b =>
  match b with
  | c :: d :: r =>
    if c = 0x0D then if d = 0x0A then some (r, [0x0D, 0x0A]) else none
    else none
  | _ => none

/-- Horizontal whitespace recognised by nom `space0`/`space1`: the space
byte `0x20` and the tab byte `0x09`. -/
def isWS (c : Nat) : Bool := c = 0x20 || c = 0x09

/-- nom `space0`: consume zero or more space/tab bytes.  It can never fail,
so it is modelled as a total function. -/
def space0 (b : List Nat) : List Nat × List Nat :=
  (b.dropWhile isWS, b.takeWhile isWS)

/-- nom `take_while1(f)`: the maximal run of bytes satisfying `f`, failing
when the first byte does not satisfy it. -/
def take_while1 (f : Nat → Bool) : Parser (List Nat) := fun b =>
  match b with
  | c :: _ => if f c then some (b.dropWhile f, b.takeWhile f) else none
  | [] => none

/-- nom `space1`: one or more space/tab bytes. -/
def space1 : Parser (List Nat) := take_while1 isWS

/-- nom `opt(p)`: turn failure into `none` without consuming input.  It can
never fail, so it is modelled as a total function. -/
def optP (p : Parser α) (b : List Nat) : List Nat × Option α :=
  match p b with
  | some (r, v) => (r, some v)
  | none => (b, none)

/-- The loop of nom `many0(p)`: run `p` until it fails, collecting results.
`fuel` bounds the iteration count; with `fuel ≥ b.length` and an inner
parser that always consumes, this is exactly nom's behaviour. -/
def many0Go (p : Parser α) : Nat → List Nat → List Nat × List α
  | 0, b => (b, [])
  | fuel + 1, b =>
    match p b with
    | none => (b, [])
    | some (r, v) =>
      let (r2, vs) := many0Go p fuel r
      (r2, v :: vs)

/-- The loop of nom `fold_many1(p, init, g)` after its first mandatory
success: run `p` until it fails, folding results into the accumulator. -/
def foldGo (p : Parser α) (g : β → α → β) : Nat → List Nat → β → List Nat × β
  | 0, b, acc => (b, acc)
  | fuel + 1, b, acc =>
    match p b with
    | none => (b, acc)
    | some (r, v) => foldGo p g fuel r (g acc v)

/-- nom `fold_many1(p, init, g)`: `p` must succeed at least once, then the
results are folded left-to-right into `init`. -/
def fold_many1 (p : Parser α) (init : β) (g : β → α → β) (fuel : Nat) :
    Parser β := fun b =>
  match p b with
  | none => none
  | some (r, v) => some (foldGo p g fuel r (g init v))

/-- The values produced by the run-until-failure loop, in order; used to
state, not to implement, properties of `foldGo`. -/
def collectGo (p : Parser α) : Nat → List Nat → List α
  | 0, _ => []
  | fuel + 1, b =>
    match p b with
    | none => []
    | some (r, v) => v :: collectGo p fuel r

/-! ## Byte classifiers (from `parse.rs`) -/

/-- Classifier `is_a_notcolon`: any ASCII non-control character other than a colon
(`A-NOTCOLON`, RFC 3977 §9.8). -/
def is_a_notcolon (chr : Nat) : Bool :=
  (0x21 ≤ chr && chr ≤ 0x39) || (0x3b ≤ chr && chr ≤ 0x7e)

/-- Rust `u8::is_ascii`: the byte is in `[0x00, 0x7F]`. -/
def isAsciiByte (c : Nat) : Bool := c ≤ 0x7F

/-- Second-byte constraint of a multi-byte UTF-8 sequence, per the lead
byte (this is the table `core::str::from_utf8` validates against). -/
def isCont (c : Nat) : Bool := 0x80 ≤ c && c ≤ 0xBF

/-- Constraint on the first continuation byte given the lead byte `c0`,
per the UTF-8 validation table used by `core::str::from_utf8`. -/
def cont2nd (c0 c1 : Nat) : Bool :=
  if c0 = 0xE0 then 0xA0 ≤ c1 && c1 ≤ 0xBF
  else if c0 = 0xED then 0x80 ≤ c1 && c1 ≤ 0x9F
  else if c0 = 0xF0 then 0x90 ≤ c1 && c1 ≤ 0xBF
  else if c0 = 0xF4 then 0x80 ≤ c1 && c1 ≤ 0x8F
  else isCont c1

/-- Rust `core::str::from_utf8(b).is_ok()`: the byte list is well-formed UTF-8,
per the standard validation table.  The four lead-byte ranges
(`≤ 0x7F`, `0xC2–0xDF`, `0xE0–0xEF`, `0xF0–0xF4`) are mutually exclusive,
so this guarded disjunction is the usual lead-byte case distinction; a
sequence cut off by the end of the slice (no arm applies) is invalid. -/
def validUtf8 : List Nat → Bool
  | [] => true
  | [c0] => c0 ≤ 0x7F
  | [c0, c1] =>
      (c0 ≤ 0x7F && validUtf8 [c1]) ||
      ((0xC2 ≤ c0 && c0 ≤ 0xDF) && isCont c1)
  | [c0, c1, c2] =>
      (c0 ≤ 0x7F && validUtf8 [c1, c2]) ||
      ((0xC2 ≤ c0 && c0 ≤ 0xDF) && isCont c1 && validUtf8 [c2]) ||
      ((0xE0 ≤ c0 && c0 ≤ 0xEF) && cont2nd c0 c1 && isCont c2)
  | c0 :: c1 :: c2 :: c3 :: rest =>
      (c0 ≤ 0x7F && validUtf8 (c1 :: c2 :: c3 :: rest)) ||
      ((0xC2 ≤ c0 && c0 ≤ 0xDF) && isCont c1 && validUtf8 (c2 :: c3 :: rest)) ||
      ((0xE0 ≤ c0 && c0 ≤ 0xEF) && cont2nd c0 c1 && isCont c2 &&
        validUtf8 (c3 :: rest)) ||
      ((0xF0 ≤ c0 && c0 ≤ 0xF4) && cont2nd c0 c1 && isCont c2 && isCont c3 &&
        validUtf8 rest)

/-- Classifier `is_utf8_non_ascii`: the slice is well-formed UTF-8 and none of its
bytes is ASCII. -/
def is_utf8_non_ascii (b : List Nat) : Bool :=
  validUtf8 b && !(b.any isAsciiByte)

/-- Classifier `is_a_char`: any ASCII character from `!` through `~` (`A-CHAR`). -/
def is_a_char (chr : Nat) : Bool := 0x21 ≤ chr && chr ≤ 0x7e

/-- Classifier `is_a_char_bytes`: true iff the byte slice is a *single* `A-CHAR`.
The Rust body indexes `b[0]` whenever `b.len() <= 1`, which would panic on
an empty slice; that panic is modelled as `none`. -/
def is_a_char_bytes (b : List Nat) : Option Bool :=
  if b.length > 1 then some false
  else
    match b with
    | [] => none
    | c :: _ => some (is_a_char c)

/-- Exactly one Unicode scalar value, encoded in 2–4 bytes, per the UTF-8
validation table.  Used only to *state* properties. -/
def isSingleUtf8Scalar : List Nat → Bool
  | [c0, c1] => 0xC2 ≤ c0 && c0 ≤ 0xDF && isCont c1
  | [c0, c1, c2] => 0xE0 ≤ c0 && c0 ≤ 0xEF && cont2nd c0 c1 && isCont c2
  | [c0, c1, c2, c3] =>
      0xF0 ≤ c0 && c0 ≤ 0xF4 && cont2nd c0 c1 && isCont c2 && isCont c3
  | _ => false

/-! ## Primitive extractors (from `parse.rs`) -/

/-- Extractor `take_ascii_byte`: one byte, provided it is ASCII
(`verify(take(1u8), |uint| uint.is_ascii())`). -/
def take_ascii_byte : Parser (List Nat) :=
  verifyP (takeP 1) (fun s => s.all isAsciiByte)

/-- Extractor `take_a_char = verify(take_ascii_byte, is_a_char_bytes)`.  The
`is_a_char_bytes` predicate can in principle panic on an empty slice
(modelled by its `none` result); `take_a_char_safety` below proves that
branch unreachable here, so mapping it to parse failure is inconsequential. -/
def take_a_char : Parser (List Nat) := fun b =>
  match take_ascii_byte b with
  | none => none
  | some (r, s) =>
    match is_a_char_bytes s with
    | some true => some (r, s)
    | some false => none
    | none => none

/-- Extractor `take_utf8_non_ascii`: try 1-, 2-, 3-, then 4-byte prefixes, accepting
the first that is valid UTF-8 with no ASCII byte. -/
def take_utf8_non_ascii : Parser (List Nat) :=
  altP (verifyP (takeP 1) is_utf8_non_ascii)
    (altP (verifyP (takeP 2) is_utf8_non_ascii)
      (altP (verifyP (takeP 3) is_utf8_non_ascii)
        (verifyP (takeP 4) is_utf8_non_ascii)))

/-- Extractor `take_p_char = alt((take_a_char, take_utf8_non_ascii))`. -/
def take_p_char : Parser (List Nat) := altP take_a_char take_utf8_non_ascii

/-- Extractor `take_header_name = take_while1(is_a_notcolon)`. -/
def take_header_name : Parser (List Nat) := take_while1 is_a_notcolon

/-- Extractor `take_token = fold_many1(take_p_char, 0, acc += len)`, then the token
is the prefix `b[..token_len]` of the original buffer. -/
def take_token : Parser (List Nat) := fun b =>
  match fold_many1 take_p_char 0 (fun acc s => acc + s.length) b.length b with
  | none => none
  | some (rest, token_len) => some (rest, b.take token_len)

/-! ## Header-content extractor (from `parse.rs`) -/

/-- Parser `tuple((space0, crlf))`: the tolerated (non-compliant) whitespace run
before a folding CRLF, together with the CRLF itself. -/
def ws_crlf : Parser (List Nat × List Nat) := fun b =>
  let (b1, ws) := space0 b
  match crlfP b1 with
  | some (b2, e) => some (b2, (ws, e))
  | none => none

/-- One continuation segment of folded header content:
`tuple((opt(tuple((space0, crlf))), space1, take_token))`. -/
def continuation :
    Parser (Option (List Nat × List Nat) × (List Nat × List Nat)) := fun b =>
  let (b1, o) := optP ws_crlf b
  match space1 b1 with
  | some (b2, w) =>
    match take_token b2 with
    | some (b3, t) => some (b3, (o, (w, t)))
    | none => none
  | none => none

/-- Extractor `take_header_content`: `[WS] token *( [WS CRLF] WS+ token ) [WS]`,
returning the exact span of consumed bytes
(`&b[..b.len() - rest.len()]`). -/
def take_header_content : Parser (List Nat) := fun b =>
  let (b1, _ws) := space0 b
  match take_token b1 with
  | none => none
  | some (b2, _token) =>
    let (b3, _more) := many0Go continuation b2.length b2
    let (rest, _trailing) := space0 b3
    some (rest, b.take (b.length - rest.length))

/-! ## Single-header extractor and aggregator (from `parse.rs`) -/

/-- Extractor `take_header`: `header-name ":" SP [header-content] CRLF`, returning
`(name, content.unwrap_or_default())`. -/
def take_header : Parser (List Nat × List Nat) := fun b =>
  match take_header_name b with
  | none => none
  | some (b1, header_name) =>
    match charP 0x3A b1 with
    | none => none
    | some (b2, _) =>
      match charP 0x20 b2 with
      | none => none
      | some (b3, _) =>
        let (b4, header_content) := optP take_header_content b3
        match crlfP b4 with
        | some (rest, _) => some (rest, (header_name, header_content.getD []))
        | none => none

/-- The `Header` collaborator type: a name and the ordered list of content
strings, one per physical occurrence (strings as UTF-8 byte lists). -/
structure Header where
  name : List Nat
  content : List (List Nat)
deriving DecidableEq, Repr

/-- The `Headers` collaborator type: `HashMap<String, Header>` modelled as
an association list (one entry per distinct name; iteration order is
immaterial to every claim), plus the total line count `len`. -/
structure Headers where
  inner : List (List Nat × Header)
  len : Nat
deriving DecidableEq, Repr

/-- Rust `map.entry(name).or_insert(Header ... )` followed
by `header.content.push(content)`. -/
def insertHeader (m : List (List Nat × Header)) (name content : List Nat) :
    List (List Nat × Header) :=
  match m with
  | [] => [(name, ⟨name, [content]⟩)]
  | (k, h) :: t =>
    if k = name then (k, ⟨h.name, h.content ++ [content]⟩) :: t
    else (k, h) :: insertHeader t name content

/-- The folding closure of `take_headers`: store one `(name, content)` pair
and bump the line counter. -/
def stepHeader (acc : List (List Nat × Header) × Nat)
    (nc : List Nat × List Nat) : List (List Nat × Header) × Nat :=
  (insertHeader acc.1 nc.1 nc.2, acc.2 + 1)

/-- Aggregator `take_headers = terminated(fold_many1(take_header, (map, 0), step), crlf)`. -/
def take_headers (b : List Nat) : Option (List Nat × Headers) :=
  match fold_many1 take_header ([], 0) stepHeader b.length b with
  | none => none
  | some (rest, (inner, len)) =>
    match crlfP rest with
    | some (body, _) => some (body, ⟨inner, len⟩)
    | none => none

/-- The `(name, content)` pairs `take_headers` folds over, in the order the
physical lines appear; used to state properties of the aggregation. -/
def headerLines (b : List Nat) : List (List Nat × List Nat) :=
  match take_header b with
  | none => []
  | some (r, v) => v :: collectGo take_header b.length r

/-- Association-list lookup in the `Headers` map (Rust `HashMap::get`). -/
def lookupH : List (List Nat × Header) → List Nat → Option Header
  | [], _ => none
  | (k, h) :: t, name => if k = name then some h else lookupH t name

/-- Repeated map insertion, used to state what the header fold builds. -/
def insF (m : List (List Nat × Header)) (pairs : List (List Nat × List Nat)) :
    List (List Nat × Header) :=
  pairs.foldl (fun m p => insertHeader m p.1 p.2) m

/-- Total number of stored content lines across all map entries. -/
def totalContent (m : List (List Nat × Header)) : Nat :=
  (m.map (fun e => e.2.content.length)).sum

/-! ## Grammar languages (RFC 3977 §9.8 / Appendix A.1), used to *state*
the claims.  These are defined from the ABNF the spec quotes, independently
of the parser functions above. -/

/-- One `P-CHAR`: a single printable-ASCII byte (`A-CHAR`) or the 2–4 byte
UTF-8 encoding of one non-ASCII Unicode scalar value. -/
def PCharL (u : List Nat) : Prop :=
  (∃ c, u = [c] ∧ is_a_char c = true) ∨ isSingleUtf8Scalar u = true

/-- A `token`: one or more consecutive `P-CHAR`s. -/
def TokenL (s : List Nat) : Prop :=
  ∃ us : List (List Nat), us ≠ [] ∧ (∀ u ∈ us, PCharL u) ∧ s = us.flatten

/-- A (possibly empty) run of horizontal whitespace. -/
def WSL (w : List Nat) : Prop := ∀ c ∈ w, isWS c = true

/-- The optional fold marker before a continuation: nothing, or horizontal
whitespace (the tolerated non-compliant part) followed by CRLF. -/
def FoldL (f : List Nat) : Prop :=
  f = [] ∨ ∃ fw, WSL fw ∧ f = fw ++ [0x0D, 0x0A]

/-- One continuation segment of header content:
`[WS CRLF] WS+ token`. -/
def SegL (s : List Nat) : Prop :=
  ∃ f w t, FoldL f ∧ WSL w ∧ w ≠ [] ∧ TokenL t ∧ s = f ++ w ++ t

/-- The header-content language:
`[WS] token *( [WS CRLF] WS+ token ) [WS]`. -/
def HeaderContentL (s : List Nat) : Prop :=
  ∃ w1 t segs w2, WSL w1 ∧ TokenL t ∧ (∀ g ∈ segs, SegL g) ∧ WSL w2 ∧
    s = w1 ++ t ++ List.flatten segs ++ w2

/-- A header name: one or more `A-NOTCOLON` bytes. -/
def NameL (n : List Nat) : Prop :=
  n ≠ [] ∧ ∀ c ∈ n, is_a_notcolon c = true

/-- One full header line: `header-name ":" SP [header-content] CRLF`. -/
def HeaderL (h : List Nat) : Prop :=
  ∃ name c, NameL name ∧ (c = [] ∨ HeaderContentL c) ∧
    h = name ++ 0x3A :: 0x20 :: (c ++ [0x0D, 0x0A])

/-- A well-formed header block followed by arbitrary body bytes: one or
more header lines, then the blank line (bare CRLF), then the body. -/
def HeaderBlockL (b body : List Nat) : Prop :=
  ∃ lines : List (List Nat), lines ≠ [] ∧ (∀ l ∈ lines, HeaderL l) ∧
    b = List.flatten lines ++ 0x0D :: 0x0A :: body

/-- The buffer does not begin with horizontal whitespace. -/
def NonWsHead (t : List Nat) : Prop :=
  t = [] ∨ ∃ d t', t = d :: t' ∧ isWS d = false

/-- The buffer begins with horizontal whitespace or a carriage return —
the bytes at which token extraction must stop. -/
def WsCrHead (t : List Nat) : Prop :=
  ∃ d t', t = d :: t' ∧ (isWS d = true ∨ d = 0x0D)

/-- Map invariant: every entry's stored `Header.name` equals its key. -/
def NameInv (m : List (List Nat × Header)) : Prop :=
  ∀ e ∈ m, e.2.name = e.1

/-- Map invariant: the keys are pairwise distinct. -/
def KeyNodup (m : List (List Nat × Header)) : Prop :=
  (m.map (fun e => e.1)).Nodup

/-! # Theorems

## Basic combinator lemmas -/

theorem takeP_eq_some {n : Nat} {b r v : List Nat} :
    takeP n b = some (r, v) ↔ n ≤ b.length ∧ r = b.drop n ∧ v = b.take n := by
  unfold takeP
  split <;> simp_all [eq_comm]

theorem charP_self (c : Nat) (t : List Nat) : charP c (c :: t) = some (t, c) := by
  simp [charP]

theorem charP_neg {c d : Nat} (t : List Nat) (h : d ≠ c) :
    charP c (d :: t) = none := by
  simp [charP, h]

theorem charP_sound {c : Nat} {b r : List Nat} {v : Nat}
    (h : charP c b = some (r, v)) : b = c :: r := by
  cases b with
  | nil => cases h
  | cons d t =>
    by_cases hd : d = c
    · subst hd
      rw [charP_self] at h
      have := congrArg Prod.fst (Option.some.inj h)
      simp only at this
      rw [← this]
    · rw [charP_neg t hd] at h; cases h

theorem crlfP_eq_some {b r v : List Nat} :
    crlfP b = some (r, v) ↔ b = 0x0D :: 0x0A :: r ∧ v = [0x0D, 0x0A] := by
  unfold crlfP
  match b with
  | [] => simp
  | [c] => simp
  | c :: d :: t =>
    by_cases hc : c = 0x0D <;> by_cases hd : d = 0x0A <;>
      simp_all [eq_comm, and_comm]

theorem takeWhile_dropWhile_append {f : Nat → Bool} {w t : List Nat}
    (hw : ∀ c ∈ w, f c = true) (ht : ∀ d t', t = d :: t' → f d = false) :
    (w ++ t).takeWhile f = w ∧ (w ++ t).dropWhile f = t := by
  induction w with
  | nil =>
    cases t with
    | nil => simp
    | cons d t' => simp [List.takeWhile_cons, List.dropWhile_cons, ht d t' rfl]
  | cons c w' ih =>
    have hc : f c = true := hw c (by simp)
    have ih' := ih (fun c hc => hw c (by simp [hc]))
    simp [List.takeWhile_cons, List.dropWhile_cons, hc, ih'.1, ih'.2]

theorem dropWhile_head_false {f : Nat → Bool} :
    ∀ (b : List Nat) (d : Nat) (t' : List Nat),
      b.dropWhile f = d :: t' → f d = false := by
  intro b
  induction b with
  | nil => intro d t' h; simp at h
  | cons c rest ih =>
    intro d t' h
    rw [List.dropWhile_cons] at h
    by_cases hc : f c = true
    · simp [hc] at h; exact ih d t' h
    · simp [hc] at h
      simp [← h.1, eq_false_of_ne_true hc]

theorem take_while1_eq_some {f : Nat → Bool} {b r v : List Nat}
    (h : take_while1 f b = some (r, v)) :
    b = v ++ r ∧ v ≠ [] ∧ (∀ c ∈ v, f c = true) ∧
      (∀ d t', r = d :: t' → f d = false) := by
  unfold take_while1 at h
  split at h
  case h_2 => exact absurd h (by simp)
  case h_1 b' c rest =>
    split at h
    case isFalse => exact absurd h (by simp)
    case isTrue hc =>
      have hp := Option.some.inj h
      have hr : List.dropWhile f (c :: rest) = r := congrArg Prod.fst hp
      have hv : List.takeWhile f (c :: rest) = v := congrArg Prod.snd hp
      refine ⟨?_, ?_, ?_, ?_⟩
      · rw [← hr, ← hv]; exact (List.takeWhile_append_dropWhile f _).symm
      · rw [← hv]; simp [List.takeWhile_cons, hc]
      · intro x hx; rw [← hv] at hx; exact List.mem_takeWhile_imp hx
      · intro d t' hd
        exact dropWhile_head_false _ d t' (by rw [hr]; exact hd)

theorem take_while1_exact {f : Nat → Bool} {w t : List Nat}
    (hw : ∀ c ∈ w, f c = true) (hne : w ≠ [])
    (ht : ∀ d t', t = d :: t' → f d = false) :
    take_while1 f (w ++ t) = some (t, w) := by
  obtain ⟨c, w', rfl⟩ : ∃ c w', w = c :: w' := by
    cases w with
    | nil => exact absurd rfl hne
    | cons c w' => exact ⟨c, w', rfl⟩
  have hc : f c = true := hw c (by simp)
  have h2 := takeWhile_dropWhile_append hw ht
  simp only [List.cons_append] at h2
  show take_while1 f (c :: (w' ++ t)) = some (t, c :: w')
  unfold take_while1
  simp [hc, h2.1, h2.2]

theorem space0_exact {w t : List Nat} (hw : WSL w) (ht : NonWsHead t) :
    space0 (w ++ t) = (t, w) := by
  have ht' : ∀ d t', t = d :: t' → isWS d = false := by
    intro d t' hd
    rcases ht with h | ⟨e, t'', het, hws⟩
    · rw [h] at hd; cases hd
    · rw [het] at hd; cases hd; exact hws
  have h := takeWhile_dropWhile_append hw ht'
  simp [space0, h.1, h.2]

theorem space0_sound (b : List Nat) :
    b = (space0 b).2 ++ (space0 b).1 ∧ WSL (space0 b).2 ∧
      (∀ d t', (space0 b).1 = d :: t' → isWS d = false) := by
  refine ⟨(List.takeWhile_append_dropWhile isWS b).symm, ?_, ?_⟩
  · intro c hc; exact List.mem_takeWhile_imp hc
  · exact fun d t' h => dropWhile_head_false b d t' h

theorem space1_exact {w t : List Nat} (hw : WSL w) (hne : w ≠ [])
    (ht : NonWsHead t) : space1 (w ++ t) = some (t, w) := by
  apply take_while1_exact hw hne
  intro d t' hd
  rcases ht with h | ⟨e, t'', het, hws⟩
  · rw [h] at hd; cases hd
  · rw [het] at hd; cases hd; exact hws

theorem space1_none {t : List Nat} (ht : NonWsHead t) : space1 t = none := by
  rcases ht with h | ⟨d, t', rfl, hws⟩
  · simp [h, space1, take_while1]
  · simp [space1, take_while1, hws]

/-! ## UTF-8 classifier lemmas -/

theorem isCont_range {c : Nat} (h : isCont c = true) : 0x80 ≤ c ∧ c ≤ 0xBF := by
  unfold isCont at h
  simp only [Bool.and_eq_true, decide_eq_true_eq] at h
  exact h

theorem cont2nd_range {c0 c1 : Nat} (h : cont2nd c0 c1 = true) :
    0x80 ≤ c1 ∧ c1 ≤ 0xBF := by
  unfold cont2nd at h
  split at h
  · simp only [Bool.and_eq_true, decide_eq_true_eq] at h; omega
  · split at h
    · simp only [Bool.and_eq_true, decide_eq_true_eq] at h; omega
    · split at h
      · simp only [Bool.and_eq_true, decide_eq_true_eq] at h; omega
      · split at h
        · simp only [Bool.and_eq_true, decide_eq_true_eq] at h; omega
        · exact isCont_range h

theorem validUtf8_single_high {c : Nat} (h : ¬ c ≤ 0x7F) :
    validUtf8 [c] = false := by
  simp [validUtf8, h]

theorem is_utf8_non_ascii_single (c : Nat) : is_utf8_non_ascii [c] = false := by
  by_cases h : c ≤ 0x7F
  · have ha : [c].any isAsciiByte = true := by simp [isAsciiByte, h]
    simp [is_utf8_non_ascii, ha]
  · simp [is_utf8_non_ascii, validUtf8_single_high h]

theorem isSingle_two {c0 c1 : Nat} (h : isSingleUtf8Scalar [c0, c1] = true) :
    0xC2 ≤ c0 ∧ c0 ≤ 0xDF ∧ isCont c1 = true := by
  unfold isSingleUtf8Scalar at h
  simp only [Bool.and_eq_true, decide_eq_true_eq] at h
  exact ⟨h.1.1, h.1.2, h.2⟩

theorem isSingle_three {c0 c1 c2 : Nat}
    (h : isSingleUtf8Scalar [c0, c1, c2] = true) :
    0xE0 ≤ c0 ∧ c0 ≤ 0xEF ∧ cont2nd c0 c1 = true ∧ isCont c2 = true := by
  unfold isSingleUtf8Scalar at h
  simp only [Bool.and_eq_true, decide_eq_true_eq] at h
  exact ⟨h.1.1.1, h.1.1.2, h.1.2, h.2⟩

theorem isSingle_four {c0 c1 c2 c3 : Nat}
    (h : isSingleUtf8Scalar [c0, c1, c2, c3] = true) :
    0xF0 ≤ c0 ∧ c0 ≤ 0xF4 ∧ cont2nd c0 c1 = true ∧ isCont c2 = true ∧
      isCont c3 = true := by
  unfold isSingleUtf8Scalar at h
  simp only [Bool.and_eq_true, decide_eq_true_eq] at h
  exact ⟨h.1.1.1.1, h.1.1.1.2, h.1.1.2, h.1.2, h.2⟩

theorem validUtf8_two {c0 c1 : Nat} (rest : List Nat) (h0 : 0xC2 ≤ c0)
    (h0' : c0 ≤ 0xDF) (h1 : isCont c1 = true) :
    validUtf8 (c0 :: c1 :: rest) = validUtf8 rest := by
  have a1 : decide (c0 ≤ 0x7F) = false := by simp; omega
  have a2 : decide (0xC2 ≤ c0) = true := by simp [h0]
  have a3 : decide (c0 ≤ 0xDF) = true := by simp [h0']
  have a4 : decide (0xE0 ≤ c0) = false := by simp; omega
  have a5 : decide (0xF0 ≤ c0) = false := by simp; omega
  match rest with
  | [] => simp [validUtf8, a1, a2, a3, h1]
  | [c2] => simp [validUtf8, a1, a2, a3, a4, h1]
  | [c2, c3] => simp [validUtf8, a1, a2, a3, a4, a5, h1]
  | c2 :: c3 :: c4 :: r => simp [validUtf8, a1, a2, a3, a4, a5, h1]

theorem validUtf8_three {c0 c1 c2 : Nat} (rest : List Nat) (h0 : 0xE0 ≤ c0)
    (h0' : c0 ≤ 0xEF) (h1 : cont2nd c0 c1 = true) (h2 : isCont c2 = true) :
    validUtf8 (c0 :: c1 :: c2 :: rest) = validUtf8 rest := by
  have a1 : decide (c0 ≤ 0x7F) = false := by simp; omega
  have a2 : decide (c0 ≤ 0xDF) = false := by simp; omega
  have a3 : decide (0xE0 ≤ c0) = true := by simp [h0]
  have a4 : decide (c0 ≤ 0xEF) = true := by simp [h0']
  have a5 : decide (0xF0 ≤ c0) = false := by simp; omega
  match rest with
  | [] => simp [validUtf8, a1, a2, a3, a4, h1, h2]
  | [c3] => simp [validUtf8, a1, a2, a3, a4, a5, h1, h2]
  | c3 :: c4 :: r => simp [validUtf8, a1, a2, a3, a4, a5, h1, h2]

theorem validUtf8_four {c0 c1 c2 c3 : Nat} (rest : List Nat) (h0 : 0xF0 ≤ c0)
    (h0' : c0 ≤ 0xF4) (h1 : cont2nd c0 c1 = true) (h2 : isCont c2 = true)
    (h3 : isCont c3 = true) :
    validUtf8 (c0 :: c1 :: c2 :: c3 :: rest) = validUtf8 rest := by
  have a1 : decide (c0 ≤ 0x7F) = false := by simp; omega
  have a2 : decide (c0 ≤ 0xDF) = false := by simp; omega
  have a3 : decide (c0 ≤ 0xEF) = false := by simp; omega
  have a4 : decide (0xF0 ≤ c0) = true := by simp [h0]
  have a5 : decide (c0 ≤ 0xF4) = true := by simp [h0']
  simp [validUtf8, a1, a2, a3, a4, a5, h1, h2, h3]

theorem validUtf8_three_incomplete {c0 c1 : Nat} (h0 : 0xE0 ≤ c0)
    (h0' : c0 ≤ 0xEF) : validUtf8 [c0, c1] = false := by
  have a1 : decide (c0 ≤ 0x7F) = false := by simp; omega
  have a2 : decide (c0 ≤ 0xDF) = false := by simp; omega
  simp [validUtf8, a1, a2]

theorem validUtf8_four_incomplete2 {c0 c1 : Nat} (h0 : 0xF0 ≤ c0)
    (h0' : c0 ≤ 0xF4) : validUtf8 [c0, c1] = false := by
  have a1 : decide (c0 ≤ 0x7F) = false := by simp; omega
  have a2 : decide (c0 ≤ 0xDF) = false := by simp; omega
  simp [validUtf8, a1, a2]

theorem validUtf8_four_incomplete3 {c0 c1 c2 : Nat} (h0 : 0xF0 ≤ c0)
    (h0' : c0 ≤ 0xF4) : validUtf8 [c0, c1, c2] = false := by
  have a1 : decide (c0 ≤ 0x7F) = false := by simp; omega
  have a2 : decide (c0 ≤ 0xDF) = false := by simp; omega
  have a3 : decide (c0 ≤ 0xEF) = false := by simp; omega
  simp [validUtf8, a1, a2, a3]

theorem scalar_props {u : List Nat} (h : isSingleUtf8Scalar u = true) :
    validUtf8 u = true ∧ u.any isAsciiByte = false ∧ 2 ≤ u.length ∧
      u.length ≤ 4 ∧ ∃ c0 rest, u = c0 :: rest ∧ 0xC2 ≤ c0 := by
  match u with
  | [] => exact absurd h (by simp [isSingleUtf8Scalar])
  | [c0] => exact absurd h (by simp [isSingleUtf8Scalar])
  | [c0, c1] =>
    obtain ⟨h0, h0', h1⟩ := isSingle_two h
    have hc1 := isCont_range h1
    refine ⟨?_, ?_, by simp, by simp, c0, [c1], rfl, h0⟩
    · rw [validUtf8_two [] h0 h0' h1]; rfl
    · simp [isAsciiByte]; omega
  | [c0, c1, c2] =>
    obtain ⟨h0, h0', h1, h2⟩ := isSingle_three h
    have hc1 := cont2nd_range h1
    have hc2 := isCont_range h2
    refine ⟨?_, ?_, by simp, by simp, c0, [c1, c2], rfl, by omega⟩
    · rw [validUtf8_three [] h0 h0' h1 h2]; rfl
    · simp [isAsciiByte]; omega
  | [c0, c1, c2, c3] =>
    obtain ⟨h0, h0', h1, h2, h3⟩ := isSingle_four h
    have hc1 := cont2nd_range h1
    have hc2 := isCont_range h2
    have hc3 := isCont_range h3
    refine ⟨?_, ?_, by simp, by simp, c0, [c1, c2, c3], rfl, by omega⟩
    · rw [validUtf8_four [] h0 h0' h1 h2 h3]; rfl
    · simp [isAsciiByte]; omega
  | c0 :: c1 :: c2 :: c3 :: c4 :: r =>
    exact absurd h (by simp [isSingleUtf8Scalar])

theorem single_of_minimal {s : List Nat} (hv : validUtf8 s = true)
    (hna : s.any isAsciiByte = false) (hlen1 : 1 ≤ s.length)
    (hlen4 : s.length ≤ 4)
    (hmin : ∀ k, 1 ≤ k → k < s.length → is_utf8_non_ascii (s.take k) = false) :
    isSingleUtf8Scalar s = true := by
  match s with
  | [] => simp at hlen1
  | [c0] =>
    simp [isAsciiByte] at hna
    rw [validUtf8_single_high (by omega)] at hv
    cases hv
  | [c0, c1] =>
    simp [isAsciiByte] at hna
    simp only [validUtf8, Bool.or_eq_true, Bool.and_eq_true,
      decide_eq_true_eq] at hv
    rcases hv with ⟨ha, _⟩ | ⟨⟨hA, hB⟩, hC⟩
    · omega
    · simp only [isSingleUtf8Scalar, Bool.and_eq_true, decide_eq_true_eq]
      exact ⟨⟨hA, hB⟩, hC⟩
  | [c0, c1, c2] =>
    simp [isAsciiByte] at hna
    simp only [validUtf8, Bool.or_eq_true, Bool.and_eq_true,
      decide_eq_true_eq] at hv
    rcases hv with (⟨ha, _⟩ | ⟨⟨⟨hA, hB⟩, _⟩, h2⟩) | ⟨⟨⟨hA, hB⟩, hC⟩, hD⟩
    · omega
    · omega
    · simp only [isSingleUtf8Scalar, Bool.and_eq_true, decide_eq_true_eq]
      exact ⟨⟨⟨hA, hB⟩, hC⟩, hD⟩
  | [c0, c1, c2, c3] =>
    have hna' := hna
    simp [isAsciiByte] at hna'
    simp only [validUtf8, Bool.or_eq_true, Bool.and_eq_true,
      decide_eq_true_eq] at hv
    rcases hv with ((⟨ha, _⟩ | ⟨⟨⟨hA, hB⟩, hC⟩, h2⟩) | ⟨⟨⟨⟨hA, hB⟩, hC⟩, hD⟩, h3⟩) |
      ⟨⟨⟨⟨⟨hA, hB⟩, hC⟩, hD⟩, hE⟩, -⟩
    · omega
    · -- a 2-byte scalar followed by two more bytes: contradicts minimality
      have h2' : is_utf8_non_ascii [c0, c1] = true := by
        unfold is_utf8_non_ascii
        rw [validUtf8_two [] hA hB hC]
        simp [validUtf8, isAsciiByte]; omega
      have := hmin 2 (by omega) (by simp)
      simp only [List.take] at this
      rw [this] at h2'
      cases h2'
    · omega
    · simp only [isSingleUtf8Scalar, Bool.and_eq_true, decide_eq_true_eq]
      exact ⟨⟨⟨⟨hA, hB⟩, hC⟩, hD⟩, hE⟩
  | c0 :: c1 :: c2 :: c3 :: c4 :: r => simp at hlen4

/-! ## Combinator inversion lemmas -/

theorem verifyP_eq_some {p : Parser α} {f : α → Bool} {b r : List Nat}
    {v : α} : verifyP p f b = some (r, v) ↔ p b = some (r, v) ∧ f v = true := by
  unfold verifyP
  cases hp : p b with
  | none => simp
  | some rv =>
    obtain ⟨r', v'⟩ := rv
    dsimp only
    by_cases hf : f v' = true
    · rw [if_pos hf]
      constructor
      · intro he
        have hv := congrArg Prod.snd (Option.some.inj he)
        simp only at hv
        exact ⟨he, hv ▸ hf⟩
      · exact fun hh => hh.1
    · rw [if_neg hf]
      constructor
      · intro he; cases he
      · rintro ⟨he, hfv⟩
        have hv := congrArg Prod.snd (Option.some.inj he)
        simp only at hv
        exact absurd (hv ▸ hfv) hf

theorem altP_eq_some {p q : Parser α} {b : List Nat} {res : List Nat × α} :
    altP p q b = some res ↔
      p b = some res ∨ (p b = none ∧ q b = some res) := by
  unfold altP
  cases hp : p b with
  | none => simp
  | some rv => simp

theorem altP_eq_none {p q : Parser α} {b : List Nat} :
    altP p q b = none ↔ p b = none ∧ q b = none := by
  unfold altP
  cases hp : p b with
  | none => simp
  | some rv => simp

theorem optP_of_some {p : Parser α} {b r : List Nat} {v : α}
    (h : p b = some (r, v)) : optP p b = (r, some v) := by
  unfold optP; rw [h]

theorem optP_of_none {p : Parser α} {b : List Nat} (h : p b = none) :
    optP p b = (b, none) := by
  unfold optP; rw [h]

/-! ## Primitive extractor lemmas -/

theorem take_ascii_byte_eq_some {b r s : List Nat} :
    take_ascii_byte b = some (r, s) ↔
      ∃ c, b = c :: r ∧ s = [c] ∧ isAsciiByte c = true := by
  unfold take_ascii_byte
  rw [verifyP_eq_some, takeP_eq_some]
  constructor
  · rintro ⟨⟨hlen, hr, hv⟩, hall⟩
    cases b with
    | nil => simp at hlen
    | cons c t =>
      simp at hr
      simp at hv
      refine ⟨c, by rw [hr], by rw [hv], ?_⟩
      rw [hv] at hall
      simpa using hall
  · rintro ⟨c, rfl, rfl, hc⟩
    exact ⟨⟨by simp, by simp, by simp⟩, by simp [hc]⟩

theorem take_a_char_eq_some {b r s : List Nat} :
    take_a_char b = some (r, s) ↔
      ∃ c, b = c :: r ∧ s = [c] ∧ is_a_char c = true := by
  unfold take_a_char
  cases hab : take_ascii_byte b with
  | none =>
    constructor
    · intro h; cases h
    · rintro ⟨c, rfl, rfl, hc⟩
      have hascii : isAsciiByte c = true := by
        unfold is_a_char at hc
        simp only [Bool.and_eq_true, decide_eq_true_eq] at hc
        unfold isAsciiByte
        simp only [decide_eq_true_eq]
        omega
      have : take_ascii_byte (c :: r) = some (r, [c]) :=
        take_ascii_byte_eq_some.mpr ⟨c, rfl, rfl, hascii⟩
      rw [this] at hab; cases hab
  | some rv =>
    obtain ⟨r', s'⟩ := rv
    obtain ⟨c, hb, hs, hc⟩ := take_ascii_byte_eq_some.mp hab
    subst hb; subst hs
    have hbytes : is_a_char_bytes [c] = some (is_a_char c) := by
      simp [is_a_char_bytes]
    dsimp only
    rw [hbytes]
    by_cases hac : is_a_char c = true
    · rw [hac]
      constructor
      · intro h
        have h1 := congrArg Prod.fst (Option.some.inj h)
        have h2 := congrArg Prod.snd (Option.some.inj h)
        simp only at h1 h2
        exact ⟨c, by rw [h1], by rw [h2], hac⟩
      · rintro ⟨c', hb', hs', hc'⟩
        have hcc : c' = c ∧ r = r' := by
          have := List.cons.injEq c r' c' r ▸ hb'
          exact ⟨this.1.symm, this.2.symm⟩
        rw [hs', hcc.1, hcc.2]
    · rw [eq_false_of_ne_true hac]
      constructor
      · intro h; cases h
      · rintro ⟨c', hb', hs', hc'⟩
        have hcc : c' = c := (List.cons.injEq c r' c' r ▸ hb').1.symm
        exact absurd (hcc ▸ hc') hac

theorem take_a_char_none_high {c : Nat} (t : List Nat)
    (h : isAsciiByte c = false) : take_a_char (c :: t) = none := by
  unfold take_a_char
  have hab : take_ascii_byte (c :: t) = none := by
    cases hx : take_ascii_byte (c :: t) with
    | none => rfl
    | some rv =>
      obtain ⟨r', s'⟩ := rv
      obtain ⟨c', hb, _, hc'⟩ := take_ascii_byte_eq_some.mp hx
      have : c' = c := (List.cons.injEq c t c' r' ▸ hb).1.symm
      rw [this] at hc'; rw [hc'] at h; cases h
  rw [hab]

theorem utf8_attempt_eq_some {k : Nat} {b r s : List Nat} :
    verifyP (takeP k) is_utf8_non_ascii b = some (r, s) ↔
      k ≤ b.length ∧ r = b.drop k ∧ s = b.take k ∧
        is_utf8_non_ascii (b.take k) = true := by
  rw [verifyP_eq_some, takeP_eq_some]
  constructor
  · rintro ⟨⟨h1, h2, h3⟩, h4⟩
    exact ⟨h1, h2, h3, h3 ▸ h4⟩
  · rintro ⟨h1, h2, h3, h4⟩
    exact ⟨⟨h1, h2, h3⟩, h3 ▸ h4⟩

theorem utf8_attempt_none_of {k : Nat} {b : List Nat}
    (h : k ≤ b.length → is_utf8_non_ascii (b.take k) = false) :
    verifyP (takeP k) is_utf8_non_ascii b = none := by
  cases hx : verifyP (takeP k) is_utf8_non_ascii b with
  | none => rfl
  | some rv =>
    obtain ⟨r', s'⟩ := rv
    obtain ⟨h1, _, _, h4⟩ := utf8_attempt_eq_some.mp hx
    rw [h h1] at h4; cases h4

theorem utf8_attempt_none_to {k : Nat} {b : List Nat}
    (h : verifyP (takeP k) is_utf8_non_ascii b = none) (hk : k ≤ b.length) :
    is_utf8_non_ascii (b.take k) = false := by
  cases hu : is_utf8_non_ascii (b.take k) with
  | false => rfl
  | true =>
    have : verifyP (takeP k) is_utf8_non_ascii b =
        some (b.drop k, b.take k) :=
      utf8_attempt_eq_some.mpr ⟨hk, rfl, rfl, hu⟩
    rw [this] at h; cases h

theorem take_utf8_eq_some {b r s : List Nat}
    (h : take_utf8_non_ascii b = some (r, s)) :
    ∃ k, 1 ≤ k ∧ k ≤ 4 ∧ k ≤ b.length ∧ r = b.drop k ∧ s = b.take k ∧
      is_utf8_non_ascii s = true ∧
      ∀ j, 1 ≤ j → j < k → is_utf8_non_ascii (b.take j) = false := by
  unfold take_utf8_non_ascii at h
  rcases altP_eq_some.mp h with h1 | ⟨n1, h'⟩
  · obtain ⟨hk, hr, hs, hu⟩ := utf8_attempt_eq_some.mp h1
    exact ⟨1, by omega, by omega, hk, hr, hs, by rw [hs]; exact hu,
      fun j hj1 hj2 => absurd hj2 (by omega)⟩
  · rcases altP_eq_some.mp h' with h2 | ⟨n2, h''⟩
    · obtain ⟨hk, hr, hs, hu⟩ := utf8_attempt_eq_some.mp h2
      refine ⟨2, by omega, by omega, hk, hr, hs, by rw [hs]; exact hu, ?_⟩
      intro j hj1 hj2
      have hj : j = 1 := by omega
      subst hj
      exact utf8_attempt_none_to n1 (by omega)
    · rcases altP_eq_some.mp h'' with h3 | ⟨n3, h4⟩
      · obtain ⟨hk, hr, hs, hu⟩ := utf8_attempt_eq_some.mp h3
        refine ⟨3, by omega, by omega, hk, hr, hs, by rw [hs]; exact hu, ?_⟩
        intro j hj1 hj2
        interval_cases j
        · exact utf8_attempt_none_to n1 (by omega)
        · exact utf8_attempt_none_to n2 (by omega)
      · obtain ⟨hk, hr, hs, hu⟩ := utf8_attempt_eq_some.mp h4
        refine ⟨4, by omega, by omega, hk, hr, hs, by rw [hs]; exact hu, ?_⟩
        intro j hj1 hj2
        interval_cases j
        · exact utf8_attempt_none_to n1 (by omega)
        · exact utf8_attempt_none_to n2 (by omega)
        · exact utf8_attempt_none_to n3 (by omega)

theorem take_utf8_eq_none {b : List Nat} :
    take_utf8_non_ascii b = none ↔
      ∀ k, 1 ≤ k → k ≤ 4 →
        ¬(k ≤ b.length ∧ is_utf8_non_ascii (b.take k) = true) := by
  unfold take_utf8_non_ascii
  rw [altP_eq_none, altP_eq_none, altP_eq_none]
  constructor
  · rintro ⟨n1, n2, n3, n4⟩ k hk1 hk4 ⟨hlen, hu⟩
    interval_cases k
    · rw [utf8_attempt_none_to n1 hlen] at hu; cases hu
    · rw [utf8_attempt_none_to n2 hlen] at hu; cases hu
    · rw [utf8_attempt_none_to n3 hlen] at hu; cases hu
    · rw [utf8_attempt_none_to n4 hlen] at hu; cases hu
  · intro hall
    refine ⟨?_, ?_, ?_, ?_⟩
    · exact utf8_attempt_none_of (fun hlen =>
        eq_false_of_ne_true (fun hu => hall 1 (by omega) (by omega) ⟨hlen, hu⟩))
    · exact utf8_attempt_none_of (fun hlen =>
        eq_false_of_ne_true (fun hu => hall 2 (by omega) (by omega) ⟨hlen, hu⟩))
    · exact utf8_attempt_none_of (fun hlen =>
        eq_false_of_ne_true (fun hu => hall 3 (by omega) (by omega) ⟨hlen, hu⟩))
    · exact utf8_attempt_none_of (fun hlen =>
        eq_false_of_ne_true (fun hu => hall 4 (by omega) (by omega) ⟨hlen, hu⟩))

theorem is_utf8_non_ascii_of_scalar {u : List Nat}
    (h : isSingleUtf8Scalar u = true) : is_utf8_non_ascii u = true := by
  obtain ⟨hv, hna, _, _, _⟩ := scalar_props h
  unfold is_utf8_non_ascii
  rw [hv, hna]
  rfl

theorem take_utf8_scalar_exact {u : List Nat} (t : List Nat)
    (h : isSingleUtf8Scalar u = true) :
    take_utf8_non_ascii (u ++ t) = some (t, u) := by
  have hna := is_utf8_non_ascii_of_scalar h
  match u with
  | [c0, c1] =>
    unfold take_utf8_non_ascii
    apply altP_eq_some.mpr
    refine Or.inr ⟨?_, ?_⟩
    · exact utf8_attempt_none_of (fun _ => is_utf8_non_ascii_single c0)
    · apply altP_eq_some.mpr
      refine Or.inl (utf8_attempt_eq_some.mpr ⟨by simp, rfl, rfl, hna⟩)
  | [c0, c1, c2] =>
    obtain ⟨h0, h0', _, _⟩ := isSingle_three h
    have hinc : is_utf8_non_ascii [c0, c1] = false := by
      unfold is_utf8_non_ascii
      rw [validUtf8_three_incomplete h0 h0']
      rfl
    unfold take_utf8_non_ascii
    apply altP_eq_some.mpr
    refine Or.inr ⟨?_, ?_⟩
    · exact utf8_attempt_none_of (fun _ => is_utf8_non_ascii_single c0)
    · apply altP_eq_some.mpr
      refine Or.inr ⟨?_, ?_⟩
      · exact utf8_attempt_none_of (fun _ => hinc)
      · apply altP_eq_some.mpr
        refine Or.inl (utf8_attempt_eq_some.mpr ⟨by simp, rfl, rfl, hna⟩)
  | [c0, c1, c2, c3] =>
    obtain ⟨h0, h0', _, _, _⟩ := isSingle_four h
    have hinc2 : is_utf8_non_ascii [c0, c1] = false := by
      unfold is_utf8_non_ascii
      rw [validUtf8_four_incomplete2 h0 h0']
      rfl
    have hinc3 : is_utf8_non_ascii [c0, c1, c2] = false := by
      unfold is_utf8_non_ascii
      rw [validUtf8_four_incomplete3 h0 h0']
      rfl
    unfold take_utf8_non_ascii
    apply altP_eq_some.mpr
    refine Or.inr ⟨?_, ?_⟩
    · exact utf8_attempt_none_of (fun _ => is_utf8_non_ascii_single c0)
    · apply altP_eq_some.mpr
      refine Or.inr ⟨?_, ?_⟩
      · exact utf8_attempt_none_of (fun _ => hinc2)
      · apply altP_eq_some.mpr
        refine Or.inr ⟨?_, ?_⟩
        · exact utf8_attempt_none_of (fun _ => hinc3)
        · exact utf8_attempt_eq_some.mpr ⟨by simp, rfl, rfl, hna⟩
  | [] => exact absurd h (by simp [isSingleUtf8Scalar])
  | [c0] => exact absurd h (by simp [isSingleUtf8Scalar])
  | c0 :: c1 :: c2 :: c3 :: c4 :: r =>
    exact absurd h (by simp [isSingleUtf8Scalar])

/-! ## P-CHAR lemmas -/

theorem pchar_shape {u : List Nat} (h : PCharL u) :
    ∃ c0 rest, u = c0 :: rest ∧ isWS c0 = false ∧ c0 ≠ 0x0D ∧
      1 ≤ u.length := by
  rcases h with ⟨c, rfl, hc⟩ | hs
  · unfold is_a_char at hc
    simp only [Bool.and_eq_true, decide_eq_true_eq] at hc
    refine ⟨c, [], rfl, ?_, by omega, by simp⟩
    unfold isWS
    simp only [Bool.or_eq_false_iff, decide_eq_false_iff_not]
    omega
  · obtain ⟨_, _, _, _, c0, rest, rfl, hc0⟩ := scalar_props hs
    refine ⟨c0, rest, rfl, ?_, by omega, by simp⟩
    unfold isWS
    simp only [Bool.or_eq_false_iff, decide_eq_false_iff_not]
    omega

theorem take_p_char_exact {u : List Nat} (t : List Nat) (h : PCharL u) :
    take_p_char (u ++ t) = some (t, u) := by
  rcases h with ⟨c, rfl, hc⟩ | hs
  · unfold take_p_char
    exact altP_eq_some.mpr (Or.inl (take_a_char_eq_some.mpr ⟨c, rfl, rfl, hc⟩))
  · unfold take_p_char
    apply altP_eq_some.mpr
    refine Or.inr ⟨?_, take_utf8_scalar_exact t hs⟩
    obtain ⟨_, _, _, _, c0, rest, rfl, hc0⟩ := scalar_props hs
    show take_a_char ((c0 :: rest) ++ t) = none
    apply take_a_char_none_high
    unfold isAsciiByte
    simp only [decide_eq_false_iff_not]
    omega

theorem take_p_char_sound {b r u : List Nat}
    (h : take_p_char b = some (r, u)) : b = u ++ r ∧ PCharL u := by
  unfold take_p_char at h
  rcases altP_eq_some.mp h with h1 | ⟨hn, h2⟩
  · obtain ⟨c, rfl, rfl, hc⟩ := take_a_char_eq_some.mp h1
    exact ⟨rfl, Or.inl ⟨c, rfl, hc⟩⟩
  · obtain ⟨k, hk1, hk4, hklen, hr, hs, hu, hmin⟩ := take_utf8_eq_some h2
    subst hr; subst hs
    refine ⟨(List.take_append_drop k b).symm, Or.inr ?_⟩
    unfold is_utf8_non_ascii at hu
    simp only [Bool.and_eq_true, Bool.not_eq_true'] at hu
    apply single_of_minimal hu.1 hu.2
    · simp [List.length_take]; omega
    · simp [List.length_take]; omega
    · intro j hj1 hj2
      rw [List.length_take] at hj2
      have hjk : j < k := by omega
      rw [List.take_take]
      rw [min_eq_left (by omega)]
      exact hmin j hj1 hjk

theorem take_p_char_nil : take_p_char [] = none := rfl

theorem utf8_ascii_head_false {c : Nat} (hws : isAsciiByte c = true)
    (l : List Nat) : is_utf8_non_ascii (c :: l) = false := by
  unfold is_utf8_non_ascii
  simp [hws]

theorem take_p_char_stop {c : Nat} (t : List Nat)
    (hws : isAsciiByte c = true) (hac : is_a_char c = false) :
    take_p_char (c :: t) = none := by
  unfold take_p_char
  apply altP_eq_none.mpr
  constructor
  · unfold take_a_char
    have hx : take_ascii_byte (c :: t) = some (t, [c]) :=
      take_ascii_byte_eq_some.mpr ⟨c, rfl, rfl, hws⟩
    rw [hx]
    dsimp only
    have hb : is_a_char_bytes [c] = some (is_a_char c) := by
      simp [is_a_char_bytes]
    rw [hb, hac]
  · unfold take_utf8_non_ascii
    apply altP_eq_none.mpr
    refine ⟨utf8_attempt_none_of (fun _ => utf8_ascii_head_false hws _), ?_⟩
    apply altP_eq_none.mpr
    refine ⟨utf8_attempt_none_of (fun _ => utf8_ascii_head_false hws _), ?_⟩
    apply altP_eq_none.mpr
    exact ⟨utf8_attempt_none_of (fun _ => utf8_ascii_head_false hws _),
      utf8_attempt_none_of (fun _ => utf8_ascii_head_false hws _)⟩

theorem take_p_char_wscr {t : List Nat} (h : WsCrHead t) :
    take_p_char t = none := by
  obtain ⟨d, t', rfl, hd⟩ := h
  have hda : isAsciiByte d = true := by
    unfold isAsciiByte
    simp only [decide_eq_true_eq]
    rcases hd with hws | rfl
    · unfold isWS at hws
      simp only [Bool.or_eq_true, decide_eq_true_eq] at hws
      omega
    · omega
  have hdc : is_a_char d = false := by
    unfold is_a_char
    rcases hd with hws | rfl
    · unfold isWS at hws
      simp only [Bool.or_eq_true, decide_eq_true_eq] at hws
      simp only [Bool.and_eq_false_iff, decide_eq_false_iff_not]
      omega
    · simp only [Bool.and_eq_false_iff, decide_eq_false_iff_not]
      omega
  exact take_p_char_stop t' hda hdc

theorem take_p_char_consumes {b r u : List Nat}
    (h : take_p_char b = some (r, u)) : 1 ≤ u.length ∧ r.length < b.length := by
  obtain ⟨hb, hp⟩ := take_p_char_sound h
  obtain ⟨c0, rest, rfl, _, _, hlen⟩ := pchar_shape hp
  constructor
  · exact hlen
  · rw [hb]
    simp only [List.cons_append, List.length_append, List.length_cons]
    omega

/-! ## Token lemmas -/

theorem PCharL_length {u : List Nat} (h : PCharL u) : 1 ≤ u.length := by
  obtain ⟨c0, rest, rfl, _, _, hlen⟩ := pchar_shape h
  exact hlen

theorem tokGo_sound :
    ∀ (fuel : Nat) (b : List Nat) (acc : Nat) (r : List Nat) (n : Nat),
      foldGo take_p_char (fun a s => a + s.length) fuel b acc = (r, n) →
      ∃ us : List (List Nat), (∀ u ∈ us, PCharL u) ∧ b = us.flatten ++ r ∧
        n = acc + us.flatten.length ∧
        (b.length ≤ fuel → take_p_char r = none) := by
  intro fuel
  induction fuel with
  | zero =>
    intro b acc r n heq
    simp only [foldGo] at heq
    obtain ⟨hr, hn⟩ := Prod.mk.injEq .. ▸ heq
    refine ⟨[], by simp, by simp [← hr], by simp [← hn], ?_⟩
    intro hlen
    have hb : b = [] := List.eq_nil_of_length_eq_zero (by omega)
    rw [← hr, hb]
    exact take_p_char_nil
  | succ fuel ih =>
    intro b acc r n heq
    simp only [foldGo] at heq
    cases hp : take_p_char b with
    | none =>
      rw [hp] at heq
      dsimp only at heq
      obtain ⟨hr, hn⟩ := Prod.mk.injEq .. ▸ heq
      refine ⟨[], by simp, by simp [← hr], by simp [← hn], fun _ => ?_⟩
      rw [← hr]; exact hp
    | some rv =>
      obtain ⟨r0, u0⟩ := rv
      rw [hp] at heq
      dsimp only at heq
      obtain ⟨us, hmem, hb, hn, hfin⟩ := ih r0 (acc + u0.length) r n heq
      obtain ⟨hb2, hpc⟩ := take_p_char_sound hp
      obtain ⟨hu1, hrlen⟩ := take_p_char_consumes hp
      refine ⟨u0 :: us, ?_, ?_, ?_, ?_⟩
      · intro x hx
        rcases List.mem_cons.mp hx with rfl | hx'
        · exact hpc
        · exact hmem x hx'
      · rw [hb2, hb, List.flatten_cons, List.append_assoc]
      · rw [hn, List.flatten_cons, List.length_append]
        omega
      · intro hlen
        exact hfin (by omega)

theorem take_token_sound {b r tok : List Nat}
    (h : take_token b = some (r, tok)) :
    tok ++ r = b ∧ TokenL tok ∧ take_p_char r = none := by
  unfold take_token at h
  cases hf : fold_many1 take_p_char 0 (fun acc s => acc + s.length)
      b.length b with
  | none => rw [hf] at h; cases h
  | some rl =>
    obtain ⟨rest, len⟩ := rl
    rw [hf] at h
    dsimp only at h
    have hr : rest = r := congrArg Prod.fst (Option.some.inj h)
    have htok : b.take len = tok := congrArg Prod.snd (Option.some.inj h)
    unfold fold_many1 at hf
    cases hp : take_p_char b with
    | none => rw [hp] at hf; cases hf
    | some rv =>
      obtain ⟨r0, u0⟩ := rv
      rw [hp] at hf
      dsimp only at hf
      obtain ⟨us, hmem, hb, hn, hfin⟩ :=
        tokGo_sound b.length r0 (0 + u0.length) rest len (Option.some.inj hf)
      obtain ⟨hb2, hpc⟩ := take_p_char_sound hp
      obtain ⟨hu1, hrlen⟩ := take_p_char_consumes hp
      have hbfull : b = (u0 ++ us.flatten) ++ rest := by
        rw [hb2, hb, List.append_assoc]
      have hlen2 : len = (u0 ++ us.flatten).length := by
        rw [hn, List.length_append]
        omega
      have htok2 : b.take len = u0 ++ us.flatten := by
        rw [hbfull, hlen2, List.take_left]
      constructor
      · rw [← htok, ← hr, htok2, hbfull]
      constructor
      · refine ⟨u0 :: us, by simp, ?_, ?_⟩
        · intro x hx
          rcases List.mem_cons.mp hx with rfl | hx'
          · exact hpc
          · exact hmem x hx'
        · rw [← htok, htok2, List.flatten_cons]
      · rw [← hr]
        exact hfin (by omega)

theorem take_token_eq_none {b : List Nat} :
    take_token b = none ↔ take_p_char b = none := by
  unfold take_token fold_many1
  cases hp : take_p_char b with
  | none => simp
  | some rv => simp

theorem tokGo_exact :
    ∀ (us : List (List Nat)) (f : List Nat) (acc fuel : Nat),
      (∀ u ∈ us, PCharL u) → take_p_char f = none →
      us.flatten.length ≤ fuel →
      foldGo take_p_char (fun a s => a + s.length) fuel (us.flatten ++ f) acc =
        (f, acc + us.flatten.length) := by
  intro us
  induction us with
  | nil =>
    intro f acc fuel _ hf _
    cases fuel with
    | zero => simp [foldGo]
    | succ fuel =>
      simp only [List.flatten_nil, List.nil_append, foldGo]
      rw [hf]
      simp
  | cons u us ih =>
    intro f acc fuel hmem hf hfl
    have hu : PCharL u := hmem u (by simp)
    have hulen : 1 ≤ u.length := PCharL_length hu
    obtain ⟨fuel', rfl⟩ : ∃ fuel', fuel = fuel' + 1 := by
      cases fuel with
      | zero =>
        exfalso
        rw [List.flatten_cons, List.length_append] at hfl
        omega
      | succ fuel' => exact ⟨fuel', rfl⟩
    have hstep : take_p_char ((u :: us).flatten ++ f) =
        some (us.flatten ++ f, u) := by
      rw [List.flatten_cons, List.append_assoc]
      exact take_p_char_exact _ hu
    simp only [foldGo]
    rw [hstep]
    dsimp only
    rw [ih f (acc + u.length) fuel' (fun x hx => hmem x (by simp [hx])) hf
      (by rw [List.flatten_cons, List.length_append] at hfl; omega)]
    rw [List.flatten_cons, List.length_append]
    congr 1
    omega

theorem take_token_exact {tok f : List Nat} (h : TokenL tok)
    (hf : take_p_char f = none) : take_token (tok ++ f) = some (f, tok) := by
  obtain ⟨us, hne, hmem, rfl⟩ := h
  obtain ⟨u0, us', rfl⟩ : ∃ u0 us', us = u0 :: us' := by
    cases us with
    | nil => exact absurd rfl hne
    | cons u0 us' => exact ⟨u0, us', rfl⟩
  unfold take_token fold_many1
  have hstep : take_p_char ((u0 :: us').flatten ++ f) =
      some (us'.flatten ++ f, u0) := by
    rw [List.flatten_cons, List.append_assoc]
    exact take_p_char_exact _ (hmem u0 (by simp))
  rw [hstep]
  dsimp only
  rw [tokGo_exact us' f (0 + u0.length) ((u0 :: us').flatten ++ f).length
    (fun x hx => hmem x (by simp [hx])) hf
    (by simp only [List.flatten_cons, List.length_append]; omega)]
  dsimp only
  have hlen : 0 + u0.length + us'.flatten.length =
      ((u0 :: us').flatten).length := by
    rw [List.flatten_cons, List.length_append]
    omega
  rw [hlen, List.take_left]

theorem take_token_isSome {b : List Nat}
    (h : take_p_char b ≠ none) : (take_token b).isSome := by
  cases ht : take_token b with
  | some rv => rfl
  | none => exact absurd (take_token_eq_none.mp ht) h

/-! ## Fold-marker and continuation-segment lemmas -/

theorem TokenL_head {tok : List Nat} (h : TokenL tok) :
    ∃ d t', tok = d :: t' ∧ isWS d = false ∧ d ≠ 0x0D := by
  obtain ⟨us, hne, hmem, rfl⟩ := h
  obtain ⟨u0, us', rfl⟩ : ∃ u0 us', us = u0 :: us' := by
    cases us with
    | nil => exact absurd rfl hne
    | cons u0 us' => exact ⟨u0, us', rfl⟩
  obtain ⟨c0, rest, rfl, hws, hcr, _⟩ := pchar_shape (hmem u0 (by simp))
  exact ⟨c0, rest ++ us'.flatten, by simp, hws, hcr⟩

theorem crlfP_self (r : List Nat) :
    crlfP (0x0D :: 0x0A :: r) = some (r, [0x0D, 0x0A]) := by
  simp [crlfP]

theorem crlfP_ne_head {d : Nat} (t : List Nat) (h : d ≠ 0x0D) :
    crlfP (d :: t) = none := by
  cases t with
  | nil => rfl
  | cons e t2 => simp [crlfP, h]

theorem ws_crlf_sound {b r : List Nat} {v : List Nat × List Nat}
    (h : ws_crlf b = some (r, v)) :
    ∃ w, WSL w ∧ b = w ++ 0x0D :: 0x0A :: r := by
  unfold ws_crlf at h
  obtain ⟨hsplit, hwsl, _⟩ := space0_sound b
  dsimp only at h
  cases hc : crlfP (space0 b).1 with
  | none => rw [hc] at h; cases h
  | some rv2 =>
    obtain ⟨r2, v2⟩ := rv2
    rw [hc] at h
    dsimp only at h
    have hr : r2 = r := congrArg Prod.fst (Option.some.inj h)
    obtain ⟨hb1, _⟩ := crlfP_eq_some.mp hc
    rw [hb1, hr] at hsplit
    exact ⟨(space0 b).2, hwsl, hsplit⟩

theorem ws_crlf_exact {fw : List Nat} (rest : List Nat) (hw : WSL fw) :
    ws_crlf (fw ++ 0x0D :: 0x0A :: rest) = some (rest, (fw, [0x0D, 0x0A])) := by
  unfold ws_crlf
  rw [space0_exact hw (Or.inr ⟨0x0D, 0x0A :: rest, rfl, by decide⟩)]
  dsimp only
  rw [crlfP_self]

theorem ws_crlf_none {w : List Nat} {d : Nat} {t' : List Nat} (hw : WSL w)
    (hd1 : isWS d = false) (hd2 : d ≠ 0x0D) :
    ws_crlf (w ++ d :: t') = none := by
  unfold ws_crlf
  rw [space0_exact hw (Or.inr ⟨d, t', rfl, hd1⟩)]
  dsimp only
  rw [crlfP_ne_head t' hd2]

theorem space1_sound {b r w : List Nat} (h : space1 b = some (r, w)) :
    b = w ++ r ∧ w ≠ [] ∧ WSL w := by
  obtain ⟨h1, h2, h3, _⟩ := take_while1_eq_some h
  exact ⟨h1, h2, h3⟩

theorem continuation_sound {b r : List Nat}
    {v : Option (List Nat × List Nat) × (List Nat × List Nat)}
    (h : continuation b = some (r, v)) : ∃ g, SegL g ∧ b = g ++ r := by
  unfold continuation at h
  cases hw : ws_crlf b with
  | some rv0 =>
    obtain ⟨b1, o0⟩ := rv0
    rw [optP_of_some hw] at h
    dsimp only at h
    obtain ⟨fw, hfw, hb⟩ := ws_crlf_sound hw
    cases hs : space1 b1 with
    | none => rw [hs] at h; cases h
    | some rv1 =>
      obtain ⟨b2, w⟩ := rv1
      rw [hs] at h
      dsimp only at h
      obtain ⟨hb1, hwne, hwsl⟩ := space1_sound hs
      cases ht : take_token b2 with
      | none => rw [ht] at h; cases h
      | some rv2 =>
        obtain ⟨b3, t⟩ := rv2
        rw [ht] at h
        dsimp only at h
        have hb3 : b3 = r := congrArg Prod.fst (Option.some.inj h)
        obtain ⟨hb2, htl, _⟩ := take_token_sound ht
        refine ⟨(fw ++ [0x0D, 0x0A]) ++ w ++ t, ⟨fw ++ [0x0D, 0x0A], w, t,
          Or.inr ⟨fw, hfw, rfl⟩, hwsl, hwne, htl, rfl⟩, ?_⟩
        rw [hb, hb1, ← hb2, hb3]
        simp [List.append_assoc]
  | none =>
    rw [optP_of_none hw] at h
    dsimp only at h
    cases hs : space1 b with
    | none => rw [hs] at h; cases h
    | some rv1 =>
      obtain ⟨b2, w⟩ := rv1
      rw [hs] at h
      dsimp only at h
      obtain ⟨hb1, hwne, hwsl⟩ := space1_sound hs
      cases ht : take_token b2 with
      | none => rw [ht] at h; cases h
      | some rv2 =>
        obtain ⟨b3, t⟩ := rv2
        rw [ht] at h
        dsimp only at h
        have hb3 : b3 = r := congrArg Prod.fst (Option.some.inj h)
        obtain ⟨hb2, htl, _⟩ := take_token_sound ht
        refine ⟨[] ++ w ++ t, ⟨[], w, t, Or.inl rfl, hwsl, hwne, htl, rfl⟩, ?_⟩
        rw [hb1, ← hb2, hb3]
        simp [List.append_assoc]

theorem continuation_exact {g rest : List Nat} (hg : SegL g)
    (hrest : take_p_char rest = none) :
    ∃ v, continuation (g ++ rest) = some (rest, v) := by
  obtain ⟨f, w, t, hf, hw, hwne, ht, rfl⟩ := hg
  obtain ⟨d, t', htd, hdws, hdcr⟩ := TokenL_head ht
  rcases hf with rfl | ⟨fw, hfwl, rfl⟩
  · -- no fold marker: ws_crlf must fail, leaving the input untouched
    refine ⟨(none, (w, t)), ?_⟩
    unfold continuation
    have hwc : ws_crlf (([] ++ w ++ t) ++ rest) = none := by
      subst htd
      simp only [List.nil_append, List.append_assoc, List.cons_append]
      exact ws_crlf_none hw hdws hdcr
    rw [optP_of_none hwc]
    dsimp only
    have hs1 : space1 (([] ++ w ++ t) ++ rest) = some (t ++ rest, w) := by
      simp only [List.nil_append, List.append_assoc]
      exact space1_exact hw hwne (Or.inr ⟨d, t' ++ rest, by rw [htd]; simp, hdws⟩)
    rw [hs1]
    dsimp only
    rw [take_token_exact ht hrest]
  · -- fold marker present
    refine ⟨(some (fw, [0x0D, 0x0A]), (w, t)), ?_⟩
    unfold continuation
    have hwc : ws_crlf (((fw ++ [0x0D, 0x0A]) ++ w ++ t) ++ rest) =
        some ((w ++ t) ++ rest, (fw, [0x0D, 0x0A])) := by
      have : ((fw ++ [0x0D, 0x0A]) ++ w ++ t) ++ rest =
          fw ++ 0x0D :: 0x0A :: ((w ++ t) ++ rest) := by
        simp [List.append_assoc]
      rw [this]
      exact ws_crlf_exact _ hfwl
    rw [optP_of_some hwc]
    dsimp only
    have hs1 : space1 ((w ++ t) ++ rest) = some (t ++ rest, w) := by
      rw [List.append_assoc]
      exact space1_exact hw hwne (Or.inr ⟨d, t' ++ rest, by rw [htd]; simp, hdws⟩)
    rw [hs1]
    dsimp only
    rw [take_token_exact ht hrest]

theorem continuation_none {w2 u' : List Nat} (hw2 : WSL w2)
    (hnws : NonWsHead u') :
    continuation (w2 ++ 0x0D :: 0x0A :: u') = none := by
  unfold continuation
  rw [optP_of_some (ws_crlf_exact u' hw2)]
  dsimp only
  rw [space1_none hnws]

theorem SegL_head {g : List Nat} (h : SegL g) :
    ∃ d g', g = d :: g' ∧ (isWS d = true ∨ d = 0x0D) := by
  obtain ⟨f, w, t, hf, hw, hwne, ht, rfl⟩ := h
  rcases hf with rfl | ⟨fw, hfwl, rfl⟩
  · obtain ⟨d, w', rfl⟩ : ∃ d w', w = d :: w' := by
      cases w with
      | nil => exact absurd rfl hwne
      | cons d w' => exact ⟨d, w', rfl⟩
    exact ⟨d, w' ++ t, by simp, Or.inl (hw d (by simp))⟩
  · cases fw with
    | nil => exact ⟨0x0D, [0x0A] ++ w ++ t, by simp, Or.inr rfl⟩
    | cons e fw' =>
      exact ⟨e, (fw' ++ [0x0D, 0x0A]) ++ w ++ t, by simp,
        Or.inl (hfwl e (by simp))⟩

theorem follower_wscr {segs : List (List Nat)} {w2 u' : List Nat}
    (hsegs : ∀ g ∈ segs, SegL g) (hw2 : WSL w2) :
    WsCrHead (segs.flatten ++ w2 ++ 0x0D :: 0x0A :: u') := by
  cases segs with
  | nil =>
    cases w2 with
    | nil => exact ⟨0x0D, 0x0A :: u', by simp, Or.inr rfl⟩
    | cons d w2' =>
      exact ⟨d, w2' ++ 0x0D :: 0x0A :: u', by simp,
        Or.inl (hw2 d (by simp))⟩
  | cons g segs' =>
    obtain ⟨d, g', rfl, hd⟩ := SegL_head (hsegs g (by simp))
    exact ⟨d, (g' ++ segs'.flatten) ++ w2 ++ 0x0D :: 0x0A :: u', by simp, hd⟩

/-! ## many0 loop lemmas -/

theorem many0_sound :
    ∀ (fuel : Nat) (b r : List Nat)
      (vs : List (Option (List Nat × List Nat) × (List Nat × List Nat))),
      many0Go continuation fuel b = (r, vs) →
      ∃ segs : List (List Nat), (∀ g ∈ segs, SegL g) ∧
        b = segs.flatten ++ r := by
  intro fuel
  induction fuel with
  | zero =>
    intro b r vs heq
    simp only [many0Go] at heq
    have hr : b = r := congrArg Prod.fst heq
    exact ⟨[], by simp, by simp [hr]⟩
  | succ fuel ih =>
    intro b r vs heq
    simp only [many0Go] at heq
    cases hc : continuation b with
    | none =>
      rw [hc] at heq
      dsimp only at heq
      have hr : b = r := congrArg Prod.fst heq
      exact ⟨[], by simp, by simp [hr]⟩
    | some rv =>
      obtain ⟨r0, v⟩ := rv
      rw [hc] at heq
      dsimp only at heq
      cases hm : many0Go continuation fuel r0 with
      | mk r2 vs' =>
        rw [hm] at heq
        dsimp only at heq
        have hr2 : r2 = r := congrArg Prod.fst heq
        obtain ⟨g, hg, hb⟩ := continuation_sound hc
        obtain ⟨segs, hsegs, hr0⟩ := ih r0 r2 vs' hm
        refine ⟨g :: segs, ?_, ?_⟩
        · intro x hx
          rcases List.mem_cons.mp hx with rfl | hx'
          · exact hg
          · exact hsegs x hx'
        · rw [hb, hr0, ← hr2, List.flatten_cons, List.append_assoc]

theorem many0_exact :
    ∀ (segs : List (List Nat)) (fuel : Nat) (w2 u' : List Nat),
      (∀ g ∈ segs, SegL g) → WSL w2 → NonWsHead u' →
      (segs.flatten ++ w2 ++ 0x0D :: 0x0A :: u').length ≤ fuel →
      ∃ vs, many0Go continuation fuel
          (segs.flatten ++ w2 ++ 0x0D :: 0x0A :: u') =
        (w2 ++ 0x0D :: 0x0A :: u', vs) := by
  intro segs
  induction segs with
  | nil =>
    intro fuel w2 u' _ hw2 hnws hfuel
    obtain ⟨fuel', rfl⟩ : ∃ f', fuel = f' + 1 := by
      cases fuel with
      | zero =>
        exfalso
        simp only [List.flatten_nil, List.nil_append, List.length_append,
          List.length_cons] at hfuel
        omega
      | succ f' => exact ⟨f', rfl⟩
    refine ⟨[], ?_⟩
    simp only [List.flatten_nil, List.nil_append, many0Go]
    rw [continuation_none hw2 hnws]
  | cons g segs' ih =>
    intro fuel w2 u' hsegs hw2 hnws hfuel
    have hg : SegL g := hsegs g (by simp)
    obtain ⟨d, g', rfl, _⟩ := SegL_head hg
    obtain ⟨fuel', rfl⟩ : ∃ f', fuel = f' + 1 := by
      cases fuel with
      | zero =>
        exfalso
        simp only [List.flatten_cons, List.cons_append,
          List.length_cons] at hfuel
        omega
      | succ f' => exact ⟨f', rfl⟩
    have hrest : take_p_char
        (segs'.flatten ++ w2 ++ 0x0D :: 0x0A :: u') = none :=
      take_p_char_wscr (follower_wscr (fun x hx => hsegs x (by simp [hx])) hw2)
    obtain ⟨v, hcont⟩ := continuation_exact hg hrest
    have hbuf : ((d :: g') :: segs').flatten ++ w2 ++ 0x0D :: 0x0A :: u' =
        (d :: g') ++ (segs'.flatten ++ w2 ++ 0x0D :: 0x0A :: u') := by
      simp [List.flatten_cons, List.append_assoc]
    obtain ⟨vs, hrec⟩ := ih fuel' w2 u' (fun x hx => hsegs x (by simp [hx]))
      hw2 hnws (by
        simp only [List.flatten_cons, List.cons_append, List.length_cons,
          List.length_append] at hfuel ⊢
        omega)
    refine ⟨v :: vs, ?_⟩
    simp only [many0Go]
    rw [hbuf, hcont]
    dsimp only
    rw [hrec]

/-! ## Header-content lemmas -/

theorem take_header_content_sound {b r s : List Nat}
    (h : take_header_content b = some (r, s)) :
    s ++ r = b ∧ HeaderContentL s := by
  unfold take_header_content at h
  obtain ⟨hsplit, hw1, _⟩ := space0_sound b
  dsimp only at h
  cases ht : take_token (space0 b).1 with
  | none => rw [ht] at h; cases h
  | some rv =>
    obtain ⟨b2, tok⟩ := rv
    rw [ht] at h
    dsimp only at h
    obtain ⟨htok, htl, _⟩ := take_token_sound ht
    cases hm : many0Go continuation b2.length b2 with
    | mk b3 vs =>
      rw [hm] at h
      dsimp only at h
      obtain ⟨segs, hsegs, hb2⟩ := many0_sound b2.length b2 b3 vs hm
      obtain ⟨hsplit3, hw2v, _⟩ := space0_sound b3
      have hr : (space0 b3).1 = r := congrArg Prod.fst (Option.some.inj h)
      rw [hr] at h hsplit3
      have hs : b.take (b.length - r.length) = s :=
        congrArg Prod.snd (Option.some.inj h)
      rw [← htok] at hsplit
      rw [hb2] at hsplit
      rw [hsplit3] at hsplit
      generalize hg1 : (space0 b).2 = W1 at hsplit hw1
      generalize hg3 : (space0 b3).2 = W2 at hsplit hw2v
      have hbX : b = (W1 ++ (tok ++ (segs.flatten ++ W2))) ++ r := by
        rw [hsplit]; simp [List.append_assoc]
      have hlen : b.length - r.length =
          (W1 ++ (tok ++ (segs.flatten ++ W2))).length := by
        rw [hbX]; simp [List.length_append]; omega
      have hsX : s = W1 ++ (tok ++ (segs.flatten ++ W2)) := by
        rw [← hs, hlen, hbX, List.take_left]
      constructor
      · rw [hsX, hbX]
      · exact ⟨W1, tok, segs, W2, hw1, htl, hsegs, hw2v,
          by rw [hsX]; simp [List.append_assoc]⟩

theorem take_header_content_exact {s u' : List Nat} (h : HeaderContentL s)
    (hnws : NonWsHead u') :
    take_header_content (s ++ 0x0D :: 0x0A :: u') =
      some (0x0D :: 0x0A :: u', s) := by
  obtain ⟨w1, t, segs, w2, hw1, ht, hsegs, hw2, rfl⟩ := h
  obtain ⟨d, t', htd, hdws, _⟩ := TokenL_head ht
  have hB : (w1 ++ t ++ List.flatten segs ++ w2) ++ 0x0D :: 0x0A :: u' =
      w1 ++ (t ++ (List.flatten segs ++ w2 ++ 0x0D :: 0x0A :: u')) := by
    simp [List.append_assoc]
  unfold take_header_content
  rw [hB]
  rw [space0_exact hw1 (Or.inr ⟨d,
    t' ++ (List.flatten segs ++ w2 ++ 0x0D :: 0x0A :: u'),
    by rw [htd]; simp, hdws⟩)]
  dsimp only
  have hpf : take_p_char (List.flatten segs ++ w2 ++ 0x0D :: 0x0A :: u') =
      none := take_p_char_wscr (follower_wscr hsegs hw2)
  rw [take_token_exact ht hpf]
  dsimp only
  obtain ⟨vs, hm⟩ := many0_exact segs
    (List.flatten segs ++ w2 ++ 0x0D :: 0x0A :: u').length w2 u' hsegs hw2
    hnws (le_refl _)
  rw [hm]
  dsimp only
  rw [space0_exact hw2 (Or.inr ⟨0x0D, 0x0A :: u', rfl, by decide⟩)]
  dsimp only
  have hback : w1 ++ (t ++ (List.flatten segs ++ w2 ++ 0x0D :: 0x0A :: u')) =
      (w1 ++ (t ++ (List.flatten segs ++ w2))) ++ 0x0D :: 0x0A :: u' := by
    simp [List.append_assoc]
  rw [hback]
  have hlen : ((w1 ++ (t ++ (List.flatten segs ++ w2))) ++
        0x0D :: 0x0A :: u').length - (0x0D :: 0x0A :: u').length =
      (w1 ++ (t ++ (List.flatten segs ++ w2))).length := by
    simp [List.length_append]
    omega
  rw [hlen, List.take_left]
  simp [List.append_assoc]

theorem take_header_content_none_crlf (t : List Nat) :
    take_header_content (0x0D :: t) = none := by
  unfold take_header_content
  have hs0 : space0 (0x0D :: t) = (0x0D :: t, []) := by
    simp [space0, isWS]
  rw [hs0]
  dsimp only
  rw [take_token_eq_none.mpr (take_p_char_wscr ⟨0x0D, t, rfl, Or.inr rfl⟩)]

theorem take_header_content_isSome {b : List Nat}
    (h : ∃ s r, b = s ++ r ∧ HeaderContentL s) :
    (take_header_content b).isSome = true := by
  obtain ⟨s, r, rfl, w1, t, segs, w2, hw1, ht, hsegs, hw2, rfl⟩ := h
  have hB : (w1 ++ t ++ List.flatten segs ++ w2) ++ r =
      w1 ++ (t ++ ((List.flatten segs ++ w2) ++ r)) := by
    simp [List.append_assoc]
  obtain ⟨d, t', htd, hdws, _⟩ := TokenL_head ht
  unfold take_header_content
  rw [hB]
  rw [space0_exact hw1 (Or.inr ⟨d, t' ++ ((List.flatten segs ++ w2) ++ r),
    by rw [htd]; simp, hdws⟩)]
  dsimp only
  have htk : (take_token (t ++ ((List.flatten segs ++ w2) ++ r))).isSome := by
    apply take_token_isSome
    obtain ⟨us, hne, hmem, rfl⟩ := ht
    obtain ⟨u0, us', rfl⟩ : ∃ u0 us', us = u0 :: us' := by
      cases us with
      | nil => exact absurd rfl hne
      | cons u0 us' => exact ⟨u0, us', rfl⟩
    rw [List.flatten_cons, List.append_assoc]
    rw [take_p_char_exact _ (hmem u0 (by simp))]
    simp
  obtain ⟨⟨b2, tok⟩, hsome⟩ := Option.isSome_iff_exists.mp htk
  rw [hsome]
  dsimp only
  cases hm : many0Go continuation b2.length b2 with
  | mk b3 vs =>
    dsimp only
    rfl

/-! ## Single-header lemmas -/

theorem notcolon_nonws {d : Nat} (h : is_a_notcolon d = true) :
    isWS d = false := by
  unfold is_a_notcolon at h
  simp only [Bool.or_eq_true, Bool.and_eq_true, decide_eq_true_eq] at h
  unfold isWS
  simp only [Bool.or_eq_false_iff, decide_eq_false_iff_not]
  omega

theorem take_header_name_exact {name : List Nat} (t : List Nat)
    (h : NameL name) :
    take_header_name (name ++ 0x3A :: t) = some (0x3A :: t, name) := by
  obtain ⟨hne, hmem⟩ := h
  apply take_while1_exact hmem hne
  intro d t' hd
  have : d = 0x3A := (List.cons.injEq .. ▸ hd).1.symm
  rw [this]
  decide

theorem take_header_name_cr (t : List Nat) :
    take_header_name (0x0D :: t) = none := by
  unfold take_header_name take_while1
  simp [is_a_notcolon]

theorem take_header_cr (t : List Nat) : take_header (0x0D :: t) = none := by
  unfold take_header
  rw [take_header_name_cr]

theorem HeaderL_head {l : List Nat} (h : HeaderL l) :
    ∃ d l', l = d :: l' ∧ is_a_notcolon d = true := by
  obtain ⟨name, c, ⟨hne, hmem⟩, _, rfl⟩ := h
  obtain ⟨d, name', rfl⟩ : ∃ d name', name = d :: name' := by
    cases name with
    | nil => exact absurd rfl hne
    | cons d name' => exact ⟨d, name', rfl⟩
  exact ⟨d, name' ++ 0x3A :: 0x20 :: (c ++ [0x0D, 0x0A]), by simp,
    hmem d (by simp)⟩

theorem take_header_exact {name c t : List Nat} (hn : NameL name)
    (hc : c = [] ∨ HeaderContentL c) (ht : NonWsHead t) :
    take_header ((name ++ 0x3A :: 0x20 :: (c ++ [0x0D, 0x0A])) ++ t) =
      some (t, (name, c)) := by
  have hB : (name ++ 0x3A :: 0x20 :: (c ++ [0x0D, 0x0A])) ++ t =
      name ++ 0x3A :: 0x20 :: (c ++ 0x0D :: 0x0A :: t) := by
    simp [List.append_assoc]
  unfold take_header
  rw [hB]
  rw [take_header_name_exact _ hn]
  dsimp only
  rw [charP_self]
  dsimp only
  rw [charP_self]
  dsimp only
  rcases hc with rfl | hcl
  · simp only [List.nil_append]
    rw [optP_of_none (take_header_content_none_crlf (0x0A :: t))]
    dsimp only
    rw [crlfP_self]
    rfl
  · rw [optP_of_some (take_header_content_exact hcl ht)]
    dsimp only
    rw [crlfP_self]
    rfl

/-! ## Header-block fold lemmas -/

theorem foldLines :
    ∀ (lines : List (List Nat)) (fuel : Nat) (body : List Nat)
      (acc : List (List Nat × Header) × Nat),
      (∀ l ∈ lines, HeaderL l) →
      (lines.flatten ++ 0x0D :: 0x0A :: body).length ≤ fuel →
      ∃ acc2, foldGo take_header stepHeader fuel
          (lines.flatten ++ 0x0D :: 0x0A :: body) acc =
        (0x0D :: 0x0A :: body, acc2) := by
  intro lines
  induction lines with
  | nil =>
    intro fuel body acc _ _
    refine ⟨acc, ?_⟩
    cases fuel with
    | zero => simp [foldGo]
    | succ f' =>
      simp only [List.flatten_nil, List.nil_append, foldGo]
      rw [take_header_cr]
  | cons l lines' ih =>
    intro fuel body acc hmem hfuel
    have hl : HeaderL l := hmem l (by simp)
    obtain ⟨d, l', hld, _⟩ := HeaderL_head hl
    obtain ⟨fuel', rfl⟩ : ∃ f', fuel = f' + 1 := by
      cases fuel with
      | zero =>
        exfalso
        rw [hld] at hfuel
        simp only [List.flatten_cons, List.cons_append,
          List.length_cons] at hfuel
        omega
      | succ f' => exact ⟨f', rfl⟩
    have hnws : NonWsHead (lines'.flatten ++ 0x0D :: 0x0A :: body) := by
      cases hls : lines' with
      | nil => exact Or.inr ⟨0x0D, 0x0A :: body, by simp, by decide⟩
      | cons l2 lines'' =>
        obtain ⟨d2, l2', hl2d, hd2⟩ := HeaderL_head (hmem l2 (by simp [hls]))
        exact Or.inr ⟨d2, l2' ++ lines''.flatten ++ 0x0D :: 0x0A :: body,
          by simp [hl2d], notcolon_nonws hd2⟩
    obtain ⟨name, c, hn, hc, rfl⟩ := hl
    have hbuf : ((name ++ 0x3A :: 0x20 :: (c ++ [0x0D, 0x0A])) ::
          lines').flatten ++ 0x0D :: 0x0A :: body =
        (name ++ 0x3A :: 0x20 :: (c ++ [0x0D, 0x0A])) ++
          (lines'.flatten ++ 0x0D :: 0x0A :: body) := by
      simp [List.flatten_cons, List.append_assoc]
    obtain ⟨acc2, hrec⟩ := ih fuel' body
      (stepHeader acc (name, c)) (fun x hx => hmem x (by simp [hx])) (by
        rw [hbuf, List.length_append] at hfuel
        have h1 : 1 ≤ (name ++ 0x3A :: 0x20 :: (c ++ [0x0D, 0x0A])).length := by
          simp only [List.length_append, List.length_cons]
          omega
        omega)
    refine ⟨acc2, ?_⟩
    simp only [foldGo]
    rw [hbuf, take_header_exact hn hc hnws]
    dsimp only
    exact hrec

/-! ## Aggregation (map and counter) lemmas -/

theorem insertHeader_sum (m : List (List Nat × Header)) (k c : List Nat) :
    totalContent (insertHeader m k c) = totalContent m + 1 := by
  induction m with
  | nil => simp [insertHeader, totalContent]
  | cons e t ih =>
    obtain ⟨k', h'⟩ := e
    unfold insertHeader
    by_cases hk : k' = k
    · rw [if_pos hk]
      simp only [totalContent, List.map_cons, List.sum_cons,
        List.length_append]
      simp
      omega
    · rw [if_neg hk]
      simp only [totalContent, List.map_cons, List.sum_cons]
      simp only [totalContent] at ih
      omega

theorem foldGo_sum_inv :
    ∀ (fuel : Nat) (b : List Nat) (acc : List (List Nat × Header) × Nat)
      (r : List Nat) (acc2 : List (List Nat × Header) × Nat),
      foldGo take_header stepHeader fuel b acc = (r, acc2) →
      acc.2 = totalContent acc.1 → acc2.2 = totalContent acc2.1 := by
  intro fuel
  induction fuel with
  | zero =>
    intro b acc r acc2 heq hinv
    simp only [foldGo] at heq
    have : acc = acc2 := congrArg Prod.snd heq
    rw [← this]
    exact hinv
  | succ fuel ih =>
    intro b acc r acc2 heq hinv
    simp only [foldGo] at heq
    cases hp : take_header b with
    | none =>
      rw [hp] at heq
      dsimp only at heq
      have : acc = acc2 := congrArg Prod.snd heq
      rw [← this]
      exact hinv
    | some rv =>
      obtain ⟨r0, v⟩ := rv
      rw [hp] at heq
      dsimp only at heq
      refine ih r0 (stepHeader acc v) r acc2 heq ?_
      simp only [stepHeader]
      rw [insertHeader_sum, ← hinv]

theorem foldGo_collect {α β : Type} (p : Parser α) (g : β → α → β) :
    ∀ (fuel : Nat) (b : List Nat) (acc : β),
      (foldGo p g fuel b acc).2 = (collectGo p fuel b).foldl g acc := by
  intro fuel
  induction fuel with
  | zero => intro b acc; simp [foldGo, collectGo]
  | succ fuel ih =>
    intro b acc
    simp only [foldGo, collectGo]
    cases hp : p b with
    | none => simp
    | some rv =>
      obtain ⟨r, v⟩ := rv
      dsimp only
      rw [ih r (g acc v)]
      simp [List.foldl]

theorem foldl_stepHeader_fst :
    ∀ (pairs : List (List Nat × List Nat)) (m : List (List Nat × Header))
      (n : Nat),
      (List.foldl stepHeader (m, n) pairs).1 = insF m pairs := by
  intro pairs
  induction pairs with
  | nil => intro m n; simp [insF]
  | cons p t ih =>
    intro m n
    simp only [List.foldl, insF, stepHeader]
    have := ih (insertHeader m p.1 p.2) (n + 1)
    simp only [insF] at this
    exact this

theorem lookupH_name :
    ∀ (m : List (List Nat × Header)), NameInv m →
      ∀ (k : List Nat) (h : Header), lookupH m k = some h → h.name = k := by
  intro m
  induction m with
  | nil => intro _ k h hl; cases hl
  | cons e t ih =>
    intro hinv k h hl
    obtain ⟨k', h'⟩ := e
    unfold lookupH at hl
    by_cases hk : k' = k
    · rw [if_pos hk] at hl
      have : h' = h := Option.some.inj hl
      rw [← this, ← hk]
      exact hinv (k', h') (by simp)
    · rw [if_neg hk] at hl
      exact ih (fun e he => hinv e (by simp [he])) k h hl

theorem lookupH_insert_self_none {m : List (List Nat × Header)}
    {k : List Nat} (c : List Nat) (h : lookupH m k = none) :
    lookupH (insertHeader m k c) k = some ⟨k, [c]⟩ := by
  induction m with
  | nil => simp [insertHeader, lookupH]
  | cons e t ih =>
    obtain ⟨k', h'⟩ := e
    unfold lookupH at h
    by_cases hk : k' = k
    · rw [if_pos hk] at h; cases h
    · rw [if_neg hk] at h
      unfold insertHeader
      rw [if_neg hk]
      unfold lookupH
      rw [if_neg hk]
      exact ih h

theorem lookupH_insert_self_some {m : List (List Nat × Header)}
    {k : List Nat} {h0 : Header} (c : List Nat)
    (h : lookupH m k = some h0) (hinv : NameInv m) :
    lookupH (insertHeader m k c) k = some ⟨k, h0.content ++ [c]⟩ := by
  induction m with
  | nil => cases h
  | cons e t ih =>
    obtain ⟨k', h'⟩ := e
    unfold lookupH at h
    by_cases hk : k' = k
    · rw [if_pos hk] at h
      have hh : h' = h0 := Option.some.inj h
      unfold insertHeader
      rw [if_pos hk]
      unfold lookupH
      rw [if_pos hk]
      have hname : h'.name = k' := hinv (k', h') (by simp)
      rw [hh] at hname
      rw [hh, hname, hk]
    · rw [if_neg hk] at h
      unfold insertHeader
      rw [if_neg hk]
      unfold lookupH
      rw [if_neg hk]
      exact ih h (fun e he => hinv e (by simp [he]))

theorem lookupH_insert_other {m : List (List Nat × Header)}
    {k k' : List Nat} (c : List Nat) (hne : k' ≠ k) :
    lookupH (insertHeader m k c) k' = lookupH m k' := by
  induction m with
  | nil =>
    simp only [insertHeader, lookupH]
    rw [if_neg (fun h => hne h.symm)]
  | cons e t ih =>
    obtain ⟨k0, h0⟩ := e
    unfold insertHeader
    by_cases hk : k0 = k
    · rw [if_pos hk]
      unfold lookupH
      have : k0 ≠ k' := by rw [hk]; exact fun h => hne h.symm
      rw [if_neg this, if_neg this]
    · rw [if_neg hk]
      unfold lookupH
      by_cases hk' : k0 = k'
      · rw [if_pos hk', if_pos hk']
      · rw [if_neg hk', if_neg hk']
        exact ih

theorem NameInv_insert {m : List (List Nat × Header)} (k c : List Nat)
    (hinv : NameInv m) : NameInv (insertHeader m k c) := by
  induction m with
  | nil =>
    intro e he
    simp [insertHeader] at he
    rw [he]
  | cons e0 t ih =>
    obtain ⟨k0, h0⟩ := e0
    unfold insertHeader
    by_cases hk : k0 = k
    · rw [if_pos hk]
      intro e he
      rcases List.mem_cons.mp he with rfl | he'
      · exact hinv (k0, h0) (by simp)
      · exact hinv e (by simp [he'])
    · rw [if_neg hk]
      intro e he
      rcases List.mem_cons.mp he with rfl | he'
      · exact hinv (k0, h0) (by simp)
      · exact ih (fun x hx => hinv x (by simp [hx])) e he'

theorem mem_keys_insert {m : List (List Nat × Header)} {k c x : List Nat}
    (h : x ∈ (insertHeader m k c).map (fun e => e.1)) :
    x ∈ m.map (fun e => e.1) ∨ x = k := by
  induction m with
  | nil =>
    simp [insertHeader] at h
    exact Or.inr h
  | cons e0 t ih =>
    obtain ⟨k0, h0⟩ := e0
    unfold insertHeader at h
    by_cases hk : k0 = k
    · rw [if_pos hk] at h
      simp only [List.map_cons, List.mem_cons] at h
      rcases h with rfl | h'
      · exact Or.inl (by simp)
      · exact Or.inl (by simp [h'])
    · rw [if_neg hk] at h
      simp only [List.map_cons, List.mem_cons] at h
      rcases h with rfl | h'
      · exact Or.inl (by simp)
      · rcases ih h' with hin | rfl
        · exact Or.inl (by simp [hin])
        · exact Or.inr rfl

theorem lookupH_none_iff {m : List (List Nat × Header)} {k : List Nat} :
    lookupH m k = none ↔ k ∉ m.map (fun e => e.1) := by
  induction m with
  | nil => simp [lookupH]
  | cons e0 t ih =>
    obtain ⟨k0, h0⟩ := e0
    unfold lookupH
    by_cases hk : k0 = k
    · rw [if_pos hk]
      simp [hk]
    · rw [if_neg hk]
      simp only [List.map_cons, List.mem_cons]
      rw [ih]
      constructor
      · intro h hmem
        rcases hmem with h' | h'
        · exact hk h'.symm
        · exact h h'
      · intro h hmem
        exact h (Or.inr hmem)

theorem KeyNodup_insert {m : List (List Nat × Header)} (k c : List Nat)
    (hnd : KeyNodup m) : KeyNodup (insertHeader m k c) := by
  induction m with
  | nil => simp [insertHeader, KeyNodup]
  | cons e0 t ih =>
    obtain ⟨k0, h0⟩ := e0
    unfold KeyNodup at hnd ⊢
    unfold insertHeader
    by_cases hk : k0 = k
    · rw [if_pos hk]
      simpa using hnd
    · rw [if_neg hk]
      simp only [List.map_cons, List.nodup_cons] at hnd ⊢
      refine ⟨?_, ?_⟩
      · intro hmem
        rcases mem_keys_insert hmem with hin | rfl
        · exact hnd.1 hin
        · exact hk rfl
      · exact ih hnd.2

theorem filter_none_of_not_mem {m : List (List Nat × Header)}
    {name : List Nat} (h : name ∉ m.map (fun e => e.1)) :
    m.filter (fun e => e.1 == name) = [] := by
  induction m with
  | nil => simp
  | cons e0 t ih =>
    obtain ⟨k0, h0⟩ := e0
    simp only [List.map_cons, List.mem_cons] at h
    push_neg at h
    rw [List.filter_cons]
    have hbeq : ((k0, h0).1 == name) = false := by
      simp only [beq_eq_false_iff_ne, ne_eq]
      exact fun hh => h.1 hh.symm
    rw [hbeq]
    simp only [Bool.false_eq_true, if_false]
    exact ih h.2

theorem filter_count_eq_one {m : List (List Nat × Header)} {name : List Nat}
    (hnd : KeyNodup m) {h : Header} (hl : lookupH m name = some h) :
    (m.filter (fun e => e.1 == name)).length = 1 := by
  induction m with
  | nil => cases hl
  | cons e0 t ih =>
    obtain ⟨k0, h0⟩ := e0
    unfold KeyNodup at hnd
    simp only [List.map_cons, List.nodup_cons] at hnd
    unfold lookupH at hl
    by_cases hk : k0 = name
    · rw [if_pos hk] at hl
      rw [List.filter_cons]
      have hbeq : ((k0, h0).1 == name) = true := by
        simp [hk]
      rw [hbeq]
      simp only [if_true, List.length_cons]
      have : t.filter (fun e => e.1 == name) = [] :=
        filter_none_of_not_mem (by rw [← hk]; exact hnd.1)
      rw [this]
      rfl
    · rw [if_neg hk] at hl
      rw [List.filter_cons]
      have hbeq : ((k0, h0).1 == name) = false := by
        simp only [beq_eq_false_iff_ne, ne_eq]
        exact hk
      rw [hbeq]
      simp only [Bool.false_eq_true, if_false]
      exact ih hnd.2 hl

theorem KeyNodup_insF :
    ∀ (pairs : List (List Nat × List Nat)) (m : List (List Nat × Header)),
      KeyNodup m → KeyNodup (insF m pairs) := by
  intro pairs
  induction pairs with
  | nil => intro m h; simpa [insF] using h
  | cons p t ih =>
    intro m h
    have : insF m (p :: t) = insF (insertHeader m p.1 p.2) t := by
      simp [insF, List.foldl]
    rw [this]
    exact ih _ (KeyNodup_insert p.1 p.2 h)

theorem lookup_insF :
    ∀ (pairs : List (List Nat × List Nat)) (m : List (List Nat × Header))
      (name : List Nat), NameInv m →
      lookupH (insF m pairs) name =
        match lookupH m name,
            (pairs.filter (fun p => p.1 == name)).map (fun p => p.2) with
        | none, [] => none
        | none, cs => some ⟨name, cs⟩
        | some h, cs => some ⟨h.name, h.content ++ cs⟩ := by
  intro pairs
  induction pairs with
  | nil =>
    intro m name hinv
    simp only [insF, List.foldl, List.filter_nil, List.map_nil]
    cases hl : lookupH m name with
    | none => rfl
    | some h =>
      obtain ⟨hn, hc⟩ := h
      simp
  | cons p t ih =>
    intro m name hinv
    have hins : insF m (p :: t) = insF (insertHeader m p.1 p.2) t := by
      simp [insF, List.foldl]
    rw [hins]
    rw [ih (insertHeader m p.1 p.2) name (NameInv_insert p.1 p.2 hinv)]
    rw [List.filter_cons]
    cases hb : (p.1 == name) with
    | true =>
      have hpe : p.1 = name := by
        have := beq_iff_eq (a := p.1) (b := name)
        rw [hb] at this
        simpa using this
      simp only [if_true, List.map_cons]
      cases hl : lookupH m name with
      | none =>
        rw [hpe]
        rw [lookupH_insert_self_none p.2 hl]
        dsimp only
        rw [List.cons_append]
        rfl
      | some h =>
        rw [hpe]
        rw [lookupH_insert_self_some p.2 hl hinv]
        dsimp only
        have hname : h.name = name := lookupH_name m hinv name h hl
        rw [hname]
        rw [List.append_assoc]
        rfl
    | false =>
      have hpe : p.1 ≠ name := by
        intro he
        rw [he] at hb
        simp at hb
      simp only [Bool.false_eq_true, if_false]
      rw [lookupH_insert_other p.2 (fun he => hpe he.symm)]

theorem take_headers_destruct {b rest : List Nat} {hs : Headers}
    (h : take_headers b = some (rest, hs)) :
    hs.inner = insF [] (headerLines b) ∧ hs.len = totalContent hs.inner := by
  unfold take_headers at h
  cases hf : fold_many1 take_header ([], 0) stepHeader b.length b with
  | none => rw [hf] at h; cases h
  | some rv =>
    obtain ⟨r1, acc2⟩ := rv
    obtain ⟨inner, len⟩ := acc2
    rw [hf] at h
    dsimp only at h
    cases hc : crlfP r1 with
    | none => rw [hc] at h; cases h
    | some rv2 =>
      obtain ⟨body, v2⟩ := rv2
      rw [hc] at h
      dsimp only at h
      have hhs : hs = ⟨inner, len⟩ :=
        (congrArg Prod.snd (Option.some.inj h)).symm
      unfold fold_many1 at hf
      cases hp : take_header b with
      | none => rw [hp] at hf; cases hf
      | some rv0 =>
        obtain ⟨r0, v0⟩ := rv0
        rw [hp] at hf
        dsimp only at hf
        have hgo := Option.some.inj hf
        constructor
        · have hsnd : (foldGo take_header stepHeader b.length r0
              (stepHeader ([], 0) v0)).2 = (inner, len) := by rw [hgo]
          rw [foldGo_collect] at hsnd
          have hfold : List.foldl stepHeader (([], 0) :
              List (List Nat × Header) × Nat)
              (v0 :: collectGo take_header b.length r0) = (inner, len) := by
            simpa [List.foldl] using hsnd
          have hfst := congrArg Prod.fst hfold
          rw [foldl_stepHeader_fst] at hfst
          unfold headerLines
          rw [hp, hhs]
          exact hfst.symm
        · have hbase : (stepHeader ([], 0) v0).2 =
              totalContent (stepHeader ([], 0) v0).1 := by
            simp [stepHeader, insertHeader, totalContent]
          have := foldGo_sum_inv b.length r0 (stepHeader ([], 0) v0) r1
            (inner, len) hgo hbase
          rw [hhs]
          exact this

/-! # Claim theorems -/

/-- C1: for every input byte buffer that is a well-formed header block under
the grammar (one or more header lines followed by a blank line), the parse
`take_headers` succeeds and returns a remainder byte-identical to the suffix
of the input following the terminating blank line's CRLF — it consumes
exactly through the blank line and nothing more. -/
theorem claim_C1 {b body : List Nat} (h : HeaderBlockL b body) :
    ∃ hs, take_headers b = some (body, hs) := by
  obtain ⟨lines, hne, hmem, rfl⟩ := h
  obtain ⟨l0, lines', rfl⟩ : ∃ l0 lines', lines = l0 :: lines' := by
    cases lines with
    | nil => exact absurd rfl hne
    | cons l0 lines' => exact ⟨l0, lines', rfl⟩
  have hl0 : HeaderL l0 := hmem l0 (by simp)
  have hnws : NonWsHead (lines'.flatten ++ 0x0D :: 0x0A :: body) := by
    cases hls : lines' with
    | nil => exact Or.inr ⟨0x0D, 0x0A :: body, by simp, by decide⟩
    | cons l2 lines'' =>
      obtain ⟨d2, l2', hl2d, hd2⟩ := HeaderL_head (hmem l2 (by simp [hls]))
      exact Or.inr ⟨d2, l2' ++ lines''.flatten ++ 0x0D :: 0x0A :: body,
        by simp [hl2d, List.append_assoc], notcolon_nonws hd2⟩
  obtain ⟨name, c, hn, hc, rfl⟩ := hl0
  have hbuf : ((name ++ 0x3A :: 0x20 :: (c ++ [0x0D, 0x0A])) ::
        lines').flatten ++ 0x0D :: 0x0A :: body =
      (name ++ 0x3A :: 0x20 :: (c ++ [0x0D, 0x0A])) ++
        (lines'.flatten ++ 0x0D :: 0x0A :: body) := by
    simp [List.flatten_cons, List.append_assoc]
  unfold take_headers fold_many1
  rw [hbuf, take_header_exact hn hc hnws]
  dsimp only
  obtain ⟨acc2, hfold⟩ := foldLines lines'
    ((name ++ 0x3A :: 0x20 :: (c ++ [0x0D, 0x0A])) ++
      (lines'.flatten ++ 0x0D :: 0x0A :: body)).length body
    (stepHeader ([], 0) (name, c)) (fun x hx => hmem x (by simp [hx]))
    (by simp only [List.length_append]; omega)
  obtain ⟨inner, len⟩ := acc2
  rw [hfold]
  dsimp only
  rw [crlfP_self]
  dsimp only
  exact ⟨⟨inner, len⟩, rfl⟩

theorem claim_C1_witness :
    ∃ hs, take_headers
        [0x41, 0x3A, 0x20, 0x78, 0x0D, 0x0A, 0x0D, 0x0A, 0x51] =
      some ([0x51], hs) :=
  claim_C1 ⟨[[0x41, 0x3A, 0x20, 0x78, 0x0D, 0x0A]], by simp,
    fun l hl => by
      rw [List.mem_singleton] at hl
      subst hl
      exact ⟨[0x41], [0x78],
        ⟨by simp, fun c hc => by
          rw [List.mem_singleton] at hc
          subst hc
          decide⟩,
        Or.inr ⟨[], [0x78], [], [],
          fun c hc => absurd hc (List.not_mem_nil c),
          ⟨[[0x78]], by simp, fun u hu => by
            rw [List.mem_singleton] at hu
            subst hu
            exact Or.inl ⟨0x78, rfl, by decide⟩, rfl⟩,
          fun g hg => absurd hg (List.not_mem_nil g),
          fun c hc => absurd hc (List.not_mem_nil c), rfl⟩,
        rfl⟩,
    rfl⟩

/-- C2: whenever `take_headers` succeeds, the returned `Headers` value
satisfies `len =` the sum over all map entries of that entry's content-list
length — the total line count equals the number of header lines consumed,
which may exceed the number of distinct names. -/
theorem claim_C2 {b rest : List Nat} {hs : Headers}
    (h : take_headers b = some (rest, hs)) :
    hs.len = (hs.inner.map (fun e => e.2.content.length)).sum := by
  have := (take_headers_destruct h).2
  simpa [totalContent] using this

theorem claim_C2_witness :
    (⟨[([0x41], ⟨[0x41], [[0x78], [0x79]]⟩)], 2⟩ : Headers).len =
      ((⟨[([0x41], ⟨[0x41], [[0x78], [0x79]]⟩)], 2⟩ : Headers).inner.map
        (fun e => e.2.content.length)).sum :=
  @claim_C2 [0x41, 0x3A, 0x20, 0x78, 0x0D, 0x0A, 0x41, 0x3A, 0x20, 0x79,
    0x0D, 0x0A, 0x0D, 0x0A] [] ⟨[([0x41], ⟨[0x41], [[0x78], [0x79]]⟩)], 2⟩
    (by decide)

/-- C3: if the first header line has a header name but is not followed by
the required ": " separator (colon then a single space), `take_headers`
fails and produces no `Headers` value — a failure at an inner extractor
aborts the whole header-block parse with no partial result. -/
theorem claim_C3 {b r1 name : List Nat}
    (h1 : take_header_name b = some (r1, name))
    (h2 : r1.take 2 ≠ [0x3A, 0x20]) : take_headers b = none := by
  have hth : take_header b = none := by
    unfold take_header
    rw [h1]
    dsimp only
    cases r1 with
    | nil => rfl
    | cons d r2 =>
      by_cases hd : d = 0x3A
      · subst hd
        rw [charP_self]
        dsimp only
        cases r2 with
        | nil => rfl
        | cons e r3 =>
          have he : e ≠ 0x20 := by
            intro he
            exact h2 (by rw [he]; rfl)
          rw [charP_neg _ he]
      · rw [charP_neg _ hd]
  unfold take_headers fold_many1
  rw [hth]

theorem claim_C3_witness :
    take_headers [0x41, 0x3A, 0x78] = none :=
  @claim_C3 [0x41, 0x3A, 0x78] [0x3A, 0x78] [0x41] (by decide) (by decide)

/-- C4: `take_header_content` accepts exactly the grammar
`[WS] token *( [WS CRLF] WS+ token ) [WS]` (it succeeds iff some prefix of
the input is in that language), and for every success it returns the exact
contiguous span of consumed bytes — the span concatenated with the
remainder is the input, so interior CRLF and continuation whitespace are
preserved verbatim, with no collapsing. -/
theorem claim_C4 (b : List Nat) :
    ((take_header_content b).isSome = true ↔
      ∃ s r, b = s ++ r ∧ HeaderContentL s) ∧
    ∀ r s, take_header_content b = some (r, s) →
      s ++ r = b ∧ HeaderContentL s := by
  constructor
  · constructor
    · intro hsome
      obtain ⟨⟨r, s⟩, he⟩ := Option.isSome_iff_exists.mp hsome
      obtain ⟨hsr, hl⟩ := take_header_content_sound he
      exact ⟨s, r, hsr.symm, hl⟩
    · exact take_header_content_isSome
  · intro r s h
    exact take_header_content_sound h

theorem claim_C4_witness :
    [0x61] ++ [] = [0x61] ∧ HeaderContentL [0x61] :=
  (claim_C4 [0x61]).2 [] [0x61] (by decide)

/-- C5: `take_utf8_non_ascii` tries prefixes of length 1, 2, 3, 4 in that
order and succeeds with the first prefix that is valid UTF-8 containing no
ASCII byte, failing iff none of the four qualifies; the length-1 attempt
never succeeds, so every successful result is a minimal valid 2–4 byte
UTF-8 sequence encoding exactly one non-ASCII Unicode scalar value. -/
theorem claim_C5 (b : List Nat) :
    (∀ c : Nat, is_utf8_non_ascii [c] = false) ∧
    (take_utf8_non_ascii b = none ↔
      ∀ k, 1 ≤ k → k ≤ 4 →
        ¬(k ≤ b.length ∧ is_utf8_non_ascii (b.take k) = true)) ∧
    ∀ r s, take_utf8_non_ascii b = some (r, s) →
      s = b.take s.length ∧ r = b.drop s.length ∧ 2 ≤ s.length ∧
      s.length ≤ 4 ∧ is_utf8_non_ascii s = true ∧
      (∀ j, 1 ≤ j → j < s.length → is_utf8_non_ascii (b.take j) = false) ∧
      isSingleUtf8Scalar s = true := by
  refine ⟨is_utf8_non_ascii_single, take_utf8_eq_none, ?_⟩
  intro r s h
  obtain ⟨k, hk1, hk4, hklen, hr, hs, hu, hmin⟩ := take_utf8_eq_some h
  have hslen : s.length = k := by
    rw [hs, List.length_take]
    omega
  have hk2 : 2 ≤ k := by
    rcases Nat.lt_or_ge k 2 with hlt | hge
    · exfalso
      have hk1' : k = 1 := by omega
      subst hk1'
      obtain ⟨c, t, rfl⟩ : ∃ c t, b = c :: t := by
        cases b with
        | nil => simp at hklen
        | cons c t => exact ⟨c, t, rfl⟩
      rw [hs] at hu
      have : (c :: t).take 1 = [c] := rfl
      rw [this] at hu
      rw [is_utf8_non_ascii_single c] at hu
      cases hu
    · exact hge
  refine ⟨by rw [hslen]; exact hs, by rw [hslen]; exact hr, by omega,
    by omega, hu, by rw [hslen]; exact hmin, ?_⟩
  have hu' := hu
  unfold is_utf8_non_ascii at hu'
  simp only [Bool.and_eq_true, Bool.not_eq_true'] at hu'
  apply single_of_minimal hu'.1 hu'.2 (by omega) (by omega)
  intro j hj1 hj2
  rw [hslen] at hj2
  rw [hs, List.take_take, min_eq_left (by omega)]
  exact hmin j hj1 hj2

theorem claim_C5_witness :
    isSingleUtf8Scalar [0xC2, 0xA2] = true :=
  ((claim_C5 [0xC2, 0xA2, 0x41]).2.2 [0x41] [0xC2, 0xA2]
    (by decide)).2.2.2.2.2.2

/-- C6: `take_token` is greedy — on success it returns a maximal contiguous
run of P-CHAR units (a nonempty `token` of the grammar) as one contiguous
prefix span of the input (span ++ remainder = input, and no further P-CHAR
can be taken from the remainder), and it fails iff there is no P-CHAR at
the front of the buffer. -/
theorem claim_C6 (b : List Nat) :
    (take_token b = none ↔ take_p_char b = none) ∧
    ∀ r tok, take_token b = some (r, tok) →
      tok ++ r = b ∧ tok ≠ [] ∧ TokenL tok ∧ take_p_char r = none := by
  refine ⟨take_token_eq_none, ?_⟩
  intro r tok h
  obtain ⟨happ, htl, hmax⟩ := take_token_sound h
  refine ⟨happ, ?_, htl, hmax⟩
  obtain ⟨d, t', htd, _, _⟩ := TokenL_head htl
  rw [htd]
  simp

theorem claim_C6_witness :
    [0x61] ++ [0x20] = [0x61, 0x20] ∧ ([0x61] : List Nat) ≠ [] ∧
      TokenL [0x61] ∧ take_p_char [0x20] = none :=
  (claim_C6 [0x61, 0x20]).2 [0x20] [0x61] (by decide)

/-- C7: when the same header name occurs on two or more physical lines of a
successfully parsed block, the resulting `Headers` contains exactly one
entry for that name, and that entry's content list has one element per
occurrence, in the order the lines appeared in the input. -/
theorem claim_C7 (b rest : List Nat) (hs : Headers) (name : List Nat)
    (h : take_headers b = some (rest, hs))
    (hrep : 2 ≤ ((headerLines b).filter (fun p => p.1 == name)).length) :
    (hs.inner.filter (fun e => e.1 == name)).length = 1 ∧
    lookupH hs.inner name = some ⟨name,
      ((headerLines b).filter (fun p => p.1 == name)).map (fun p => p.2)⟩ := by
  have hinner := (take_headers_destruct h).1
  have hlk := lookup_insF (headerLines b) [] name
    (fun e he => absurd he (List.not_mem_nil e))
  cases hcs : ((headerLines b).filter (fun p => p.1 == name)).map
      (fun p => p.2) with
  | nil =>
    exfalso
    have := congrArg List.length hcs
    rw [List.length_map] at this
    simp only [List.length_nil] at this
    omega
  | cons c0 cs' =>
    rw [hcs] at hlk
    have hnone : lookupH ([] : List (List Nat × Header)) name = none := rfl
    rw [hnone] at hlk
    dsimp only at hlk
    constructor
    · rw [hinner]
      exact filter_count_eq_one
        (KeyNodup_insF (headerLines b) [] (by simp [KeyNodup])) hlk
    · rw [hinner, hlk]

theorem claim_C7_witness :
    ((⟨[([0x41], ⟨[0x41], [[0x78], [0x79]]⟩)], 2⟩ : Headers).inner.filter
        (fun e => e.1 == [0x41])).length = 1 ∧
    lookupH (⟨[([0x41], ⟨[0x41], [[0x78], [0x79]]⟩)], 2⟩ : Headers).inner
        [0x41] =
      some ⟨[0x41], ((headerLines [0x41, 0x3A, 0x20, 0x78, 0x0D, 0x0A, 0x41,
        0x3A, 0x20, 0x79, 0x0D, 0x0A, 0x0D, 0x0A]).filter
          (fun p => p.1 == [0x41])).map (fun p => p.2)⟩ :=
  claim_C7 [0x41, 0x3A, 0x20, 0x78, 0x0D, 0x0A, 0x41, 0x3A, 0x20, 0x79, 0x0D,
      0x0A, 0x0D, 0x0A] []
    ⟨[([0x41], ⟨[0x41], [[0x78], [0x79]]⟩)], 2⟩ [0x41]
    (by decide) (by decide)

/-- C8: a header line consisting of a name, colon, a single space, and an
immediate line terminator (content absent) parses with an empty content
span — on the bytes of `"X-Spam-Level: \r\n\r\n"`, `take_headers` yields
exactly one entry `X-Spam-Level` whose content list is `[""]` (the empty
string, modelled as the empty byte list), with remainder empty. -/
theorem claim_C8 :
    take_headers [0x58, 0x2D, 0x53, 0x70, 0x61, 0x6D, 0x2D, 0x4C, 0x65, 0x76,
        0x65, 0x6C, 0x3A, 0x20, 0x0D, 0x0A, 0x0D, 0x0A] =
      some ([], ⟨[([0x58, 0x2D, 0x53, 0x70, 0x61, 0x6D, 0x2D, 0x4C, 0x65,
        0x76, 0x65, 0x6C], ⟨[0x58, 0x2D, 0x53, 0x70, 0x61, 0x6D, 0x2D, 0x4C,
        0x65, 0x76, 0x65, 0x6C], [[]]⟩)], 1⟩) := by
  decide

/-- C9: `take_a_char` never panics — although `is_a_char_bytes` indexes
`b[0]` unconditionally when the slice length is at most 1 (out of bounds on
an empty slice, modelled as its `none` result), every slice
`take_ascii_byte` can hand it has length exactly 1, so the out-of-bounds
branch is unreachable and `take_a_char` is total: for every input it either
succeeds consuming one byte in 0x21–0x7E or fails. -/
theorem claim_C9 (b : List Nat) :
    (∀ r s, take_ascii_byte b = some (r, s) →
      s.length = 1 ∧ (is_a_char_bytes s).isSome = true) ∧
    (take_a_char b = none ∨
      ∃ c r, b = c :: r ∧ take_a_char b = some (r, [c]) ∧
        0x21 ≤ c ∧ c ≤ 0x7E) := by
  constructor
  · intro r s h
    obtain ⟨c, rfl, rfl, hc⟩ := take_ascii_byte_eq_some.mp h
    exact ⟨rfl, by simp [is_a_char_bytes]⟩
  · cases ht : take_a_char b with
    | none => exact Or.inl rfl
    | some rv =>
      obtain ⟨r, s⟩ := rv
      obtain ⟨c, rfl, rfl, hc⟩ := take_a_char_eq_some.mp ht
      unfold is_a_char at hc
      simp only [Bool.and_eq_true, decide_eq_true_eq] at hc
      exact Or.inr ⟨c, r, rfl, rfl, hc.1, hc.2⟩

theorem claim_C9_witness :
    ([0x41] : List Nat).length = 1 ∧
      (is_a_char_bytes [0x41]).isSome = true :=
  (claim_C9 [0x41, 0x42]).1 [0x42] [0x41] (by decide)

/-- C10: the horizontal whitespace accepted in header content — leading
whitespace, the tolerated whitespace before a folding CRLF, the mandatory
continuation indent after the fold, and trailing whitespace — matches both
the space byte 0x20 and the tab byte 0x09 (nom's `space0`/`space1`), so
the non-compliant whitespace-before-fold tolerance accepts tabs as well as
spaces: with `c` either byte, the folded content `c 'a' c CRLF c 'b' c` is
consumed in full. -/
theorem claim_C10 (c : Nat) (h : c = 0x20 ∨ c = 0x09) :
    isWS c = true ∧
    take_header_content [c, 0x61, c, 0x0D, 0x0A, c, 0x62, c] =
      some ([], [c, 0x61, c, 0x0D, 0x0A, c, 0x62, c]) := by
  rcases h with rfl | rfl
  · exact ⟨by decide, by decide⟩
  · exact ⟨by decide, by decide⟩

theorem claim_C10_witness :
    isWS 0x09 = true ∧
    take_header_content [0x09, 0x61, 0x09, 0x0D, 0x0A, 0x09, 0x62, 0x09] =
      some ([], [0x09, 0x61, 0x09, 0x0D, 0x0A, 0x09, 0x62, 0x09]) :=
  claim_C10 0x09 (Or.inr rfl)

end Brokaw
